import Mathlib

/-!
Verification of the stark-from-zero educational STARK prover and verifier.

The Rust sources are shallowly embedded: i128 arithmetic is modelled as
unbounded Int with explicit wrapping (`wrap128`) where the source uses
wrapping operations, Rust `%` and `/` on i128 are `Int.tmod` and `Int.tdiv`
(truncation towards zero), and functions that can panic return `Option`
(`none` models a panic).  Definitions keep the source names.
-/

namespace Stark

/-- Wrap an unbounded integer into the i128 range, as Rust wrapping ops do:
the result is congruent mod 2^128 and lies in [-2^127, 2^127). -/
def wrap128 (x : Int) : Int :=
  (x + 2 ^ 127) % 2 ^ 128 - 2 ^ 127

/-- Digit loop of `hashing::hash`: while num != 0 it multiplies the
accumulator by 113 (wrapping), adds the low decimal digit (Rust `% 10`,
truncated, so negative for negative num) and truncation-divides num by 10.
The first argument is structural-recursion fuel: an i128 value has at most
39 decimal digits, and the loop is only ever entered on a wrapped value,
so the fuel of 40 supplied by `hash` never runs out. -/
def hashLoop : Nat → Int → Int → Int
  | 0, h, _ => h
  | fuel + 1, h, num =>
      if num = 0 then h
      else hashLoop fuel (wrap128 (wrap128 (h * 113) + num.tmod 10)) (num.tdiv 10)

/-- Model of `hashing::hash`: seed 3, premultiply the input by 100003 with
i128 wrapping, then fold in the decimal digits. -/
def hash (input : Int) : Int :=
  hashLoop 40 3 (wrap128 (input * 100003))

/-- Model of `merkle_tree::hash_two_inputs`: hash both inputs, sort the two
hashes, and hash their wrapping sum, which makes the combiner commutative. -/
def hash_two_inputs (a b : Int) : Int :=
  let ha := hash a
  let hb := hash b
  let lo := if ha ≤ hb then ha else hb
  let hi := if ha ≤ hb then hb else ha
  hash (wrap128 (lo + hi))

/-- Model of `FiniteField`: the field is represented by its prime alone. -/
structure FiniteField where
  prime : Int
deriving DecidableEq

/-- Model of `FiniteFieldElement`: a value together with its field.  Rust
`PartialEq` compares prime and value, which is structural equality here. -/
structure FiniteFieldElement where
  value : Int
  field : FiniteField
deriving DecidableEq

namespace FiniteFieldElement

/-- The default prime 3 * 2^30 + 1 = 3221225473. -/
def DEFAULT_FIELD_SIZE : Int := 3 * 2 ^ 30 + 1

/-- The default field. -/
def DEFAULT_FIELD : FiniteField := ⟨DEFAULT_FIELD_SIZE⟩

/-- The `ZERO` constant of the source. -/
def ZERO : FiniteFieldElement := ⟨0, DEFAULT_FIELD⟩

/-- Model of `FiniteFieldElement::new`: reduce with Rust `%` (truncated
remainder, so negative inputs stay negative) into the default field. -/
def new (value : Int) : FiniteFieldElement :=
  ⟨value.tmod DEFAULT_FIELD.prime, DEFAULT_FIELD⟩

/-- Model of `FiniteFieldElement::new_fielded`. -/
def new_fielded (value : Int) (field : FiniteField) : FiniteFieldElement :=
  ⟨value.tmod field.prime, field⟩

/-- Model of `add`: reduce the sum, then `new_fielded` reduces once more. -/
def add (a b : FiniteFieldElement) : FiniteFieldElement :=
  new_fielded ((a.value + b.value).tmod a.field.prime) a.field

/-- Model of `subtract`: the prime is pre-added to keep the value
non-negative for canonical operands. -/
def subtract (a b : FiniteFieldElement) : FiniteFieldElement :=
  new_fielded ((a.value + a.field.prime - b.value).tmod a.field.prime) a.field

/-- Model of `multiply`.  The source asserts that both operands share one
prime; every use proved below satisfies the assertion, and the model keeps
the first operand's field as the source does. -/
def multiply (a b : FiniteFieldElement) : FiniteFieldElement :=
  new_fielded ((a.value * b.value).tmod a.field.prime) a.field

/-- The square-and-multiply loop of `pow`, with the remaining exponent as a
natural number (the Rust loop runs only while the i128 exponent is
positive).  Each round multiplies the accumulator in when the exponent is
odd, squares the base and halves the exponent.  The first argument is
structural-recursion fuel: a positive i128 exponent is below 2^127, so the
loop halves it to zero in at most 127 rounds and the fuel of 128 supplied
by `pow` never runs out. -/
def powAux : Nat → FiniteFieldElement → FiniteFieldElement → Nat →
    FiniteFieldElement
  | 0, result, _, _ => result
  | fuel + 1, result, base, exp =>
      if exp = 0 then result
      else
        powAux fuel (if exp % 2 = 1 then result.multiply base else result)
          (base.multiply base) (exp / 2)

/-- Model of `pow`: non-positive i128 exponents never enter the loop, so
they yield the freshly built unit element. -/
def pow (a : FiniteFieldElement) (exponent : Int) : FiniteFieldElement :=
  powAux 128 (new_fielded 1 a.field) a exponent.toNat

/-- Model of `inverse`: Fermat, `pow(p - 2)`. -/
def inverse (a : FiniteFieldElement) : FiniteFieldElement :=
  a.pow (a.field.prime - 2)

/-- Model of `negate`: p - value, reduced. -/
def negate (a : FiniteFieldElement) : FiniteFieldElement :=
  new_fielded ((a.field.prime - a.value).tmod a.field.prime) a.field

/-- Model of `is_zero`: compares the stored value with literal zero. -/
def is_zero (a : FiniteFieldElement) : Bool :=
  a.value = 0

/-- Model of `FiniteFieldElement::hash`. -/
def hash (a : FiniteFieldElement) : Int :=
  Stark.hash a.value

end FiniteFieldElement

/-- Model of `Polynomial` (the field-element draft in `src/polynomial/`):
an ordered list of coefficients, constant term first. -/
structure Polynomial where
  coefficients : List FiniteFieldElement
deriving DecidableEq

namespace Polynomial

/-- Model of `Polynomial::new`: raw i128 coefficients mapped into the
default field. -/
def new (coefficients : List Int) : Polynomial :=
  ⟨coefficients.map FiniteFieldElement.new⟩

/-- Model of `Polynomial::new_ff`: the coefficients are stored as given,
without reduction. -/
def new_ff (coefficients : List FiniteFieldElement) : Polynomial :=
  ⟨coefficients⟩

/-- Length of the prefix ending at the last coefficient whose stored value
is literally non-zero (0 when every coefficient is zero).  This is the
`rposition` index-plus-one used by `trim`, and the last non-zero position
used by `degree`. -/
def lastNonzeroLen : List FiniteFieldElement → Nat
  | [] => 0
  | c :: rest =>
      let r := lastNonzeroLen rest
      if r = 0 then (if c.is_zero then 0 else 1) else r + 1

/-- Model of `degree`: the greatest index holding a non-zero coefficient,
and 0 when there is none. -/
def degree (p : Polynomial) : Nat :=
  lastNonzeroLen p.coefficients - 1

/-- Model of `trim`: drop all trailing zero coefficients. -/
def trim (p : Polynomial) : Polynomial :=
  ⟨p.coefficients.take (lastNonzeroLen p.coefficients)⟩

/-- Convenience accessor mirroring `to_i128_coeffs`. -/
def to_i128_coeffs (p : Polynomial) : List Int :=
  p.coefficients.map (·.value)

/-- Modelled from the spec: the field-element `evaluate` is referenced by
the prover and verifier but only an older i128 draft of it is in the
sources.  Per §4.2 it returns the field sum of coefficient times power,
accumulated in the field of the evaluation point. -/
def evaluate (p : Polynomial) (x : FiniteFieldElement) : FiniteFieldElement :=
  (p.coefficients.enum).foldl
    (fun result ic => result.add ((x.pow (ic.1 : Int)).multiply ic.2))
    (FiniteFieldElement.new_fielded 0 x.field)

/-- Modelled from the spec: the field-element `add` is referenced by the
interpolator but only an older i128 draft of it is in the sources.  Per
§4.2 and §3 it pairs coefficients by index, padding with zero, and the
result length is the maximum of the input lengths. -/
def add (a b : Polynomial) : Polynomial :=
  ⟨(List.range (max a.coefficients.length b.coefficients.length)).map
    (fun i =>
      (a.coefficients.getD i FiniteFieldElement.ZERO).add
        (b.coefficients.getD i FiniteFieldElement.ZERO))⟩

/-- Modelled from the spec: the field-element `multiply` is referenced by
the interpolator and the prover but only an older i128 draft of it is in
the sources.  Per §4.2 and §3 it is schoolbook convolution in the field
with result length len(a) + len(b) - 1 when both inputs are non-empty. -/
def multiply (a b : Polynomial) : Polynomial :=
  if a.coefficients = [] ∨ b.coefficients = [] then ⟨[]⟩
  else
    ⟨(List.range (a.coefficients.length + b.coefficients.length - 1)).map
      (fun k =>
        (List.range a.coefficients.length).foldl
          (fun acc i =>
            if i ≤ k ∧ k - i < b.coefficients.length then
              acc.add
                ((a.coefficients.getD i FiniteFieldElement.ZERO).multiply
                  (b.coefficients.getD (k - i) FiniteFieldElement.ZERO))
            else acc)
          FiniteFieldElement.ZERO)⟩

/-- Modelled from the spec: the field-element `multiply_scalar` is
referenced by the interpolator but only an older i128 draft of it is in
the sources.  Per §4.2 it multiplies each coefficient by the scalar in the
field. -/
def multiply_scalar (a : Polynomial) (scalar : Int) : Polynomial :=
  ⟨a.coefficients.map (fun c => c.multiply (FiniteFieldElement.new scalar))⟩

/-- The inner subtraction loop of `Polynomial::div`, parameterised by the
number of rounds m (the source runs exactly ddeg + 1 of them): round j
subtracts divisor[j] * quot from the working dividend at position i + j
when that position exists. -/
def divInnerFold (divisor : List FiniteFieldElement)
    (quot : FiniteFieldElement) (i m : Nat)
    (dividend : List FiniteFieldElement) : List FiniteFieldElement :=
  (List.range m).foldl
    (fun dv j =>
      if i + j < dv.length then
        dv.set (i + j)
          ((dv.getD (i + j) FiniteFieldElement.ZERO).subtract
            ((divisor.getD j FiniteFieldElement.ZERO).multiply quot))
      else dv)
    dividend

/-- One outer step of the long-division loop of `Polynomial::div` at
quotient position i: when the working dividend still has a non-zero
coefficient at degree `ddeg + i`, record the quotient coefficient and
subtract the shifted multiple of the divisor. -/
def divStep (divisor : List FiniteFieldElement) (ddeg : Nat)
    (leadInv : FiniteFieldElement) (i : Nat)
    (st : List FiniteFieldElement × List FiniteFieldElement) :
    List FiniteFieldElement × List FiniteFieldElement :=
  let dividend := st.1
  let quotient := st.2
  let cd := ddeg + i
  if cd < dividend.length ∧
      ¬(dividend.getD cd FiniteFieldElement.ZERO).is_zero then
    let quot := (dividend.getD cd FiniteFieldElement.ZERO).multiply leadInv
    (divInnerFold divisor quot i (ddeg + 1) dividend, quotient.set i quot)
  else (dividend, quotient)

/-- The outer loop of `Polynomial::div`, iterating the quotient position
downwards from the top: `divLoop n` performs the steps at
i = n-1, n-2, ..., 0. -/
def divLoop (divisor : List FiniteFieldElement) (ddeg : Nat)
    (leadInv : FiniteFieldElement) :
    Nat → List FiniteFieldElement × List FiniteFieldElement →
    List FiniteFieldElement × List FiniteFieldElement
  | 0, st => st
  | n + 1, st => divLoop divisor ddeg leadInv n (divStep divisor ddeg leadInv n st)

/-- Model of `Polynomial::div` (polynomial long division with the inverse
of the divisor's leading coefficient).  `none` models the two panics:
division by an identically zero divisor, and deg(dividend) <
deg(divisor). -/
def div (p divisor : Polynomial) : Option (Polynomial × Polynomial) :=
  if divisor.coefficients.all (fun c => c.is_zero) then none
  else
    let dividend_degree := p.degree
    let divisor_degree := divisor.degree
    if dividend_degree < divisor_degree then none
    else
      let lead_div := divisor.coefficients.getD divisor_degree FiniteFieldElement.ZERO
      let lead_div_inv := lead_div.inverse
      let qlen := dividend_degree - divisor_degree + 1
      let st :=
        divLoop divisor.coefficients divisor_degree lead_div_inv qlen
          (p.coefficients, List.replicate qlen FiniteFieldElement.ZERO)
      some (new_ff st.2, (new_ff st.1).trim)

end Polynomial

/-- The Lagrange basis numerator for node i: the product over j ≠ i of the
linear factors (x - x_j), built exactly as the source builds it. -/
def lagrangeBasis (points : List (Int × Int)) (i : Nat) : Polynomial :=
  (List.range points.length).foldl
    (fun basis j =>
      if i = j then basis
      else basis.multiply (Polynomial.new [-(points.getD j (0, 0)).1, 1]))
    (Polynomial.new [1])

/-- The Lagrange denominator for node i: the field product over j ≠ i of
(x_i - x_j). -/
def lagrangeDenom (points : List (Int × Int)) (i : Nat) : FiniteFieldElement :=
  (List.range points.length).foldl
    (fun denom j =>
      if i = j then denom
      else
        denom.multiply
          (FiniteFieldElement.new
            ((points.getD i (0, 0)).1 - (points.getD j (0, 0)).1)))
    (FiniteFieldElement.new 1)

/-- Model of `lagrange_interpolation`: accumulate y_i * denom_i^(-1) times
the basis polynomial for each node, over the default field. -/
def lagrange_interpolation (points : List (Int × Int)) : Polynomial :=
  if points.length = 0 then Polynomial.new []
  else
    (List.range points.length).foldl
      (fun result i =>
        let scale :=
          (FiniteFieldElement.new (points.getD i (0, 0)).2).multiply
            (lagrangeDenom points i).inverse
        result.add ((lagrangeBasis points i).multiply_scalar scale.value))
      (Polynomial.new [])

/-- Model of `EvaluationDomain`. -/
structure EvaluationDomain where
  field : FiniteField
  points : List FiniteFieldElement
deriving DecidableEq

namespace EvaluationDomain

/-- Model of `new_linear`: points 0..n-1 reduced into the field.  The
source asserts n > 0; the model is total and every verified path either
satisfies the assertion or already panics inside the loop that follows. -/
def new_linear (field : FiniteField) (n : Nat) : EvaluationDomain :=
  ⟨field, (List.range n).map (fun i => FiniteFieldElement.new_fielded i field)⟩

/-- Model of `size`. -/
def size (d : EvaluationDomain) : Nat :=
  d.points.length

/-- Model of `element`: Rust indexes the point vector, panicking when the
index is out of range, which `none` models. -/
def element (d : EvaluationDomain) (i : Nat) : Option FiniteFieldElement :=
  d.points.get? i

/-- Model of `evaluate_vanishing`: the product of (x - a_i) over the
domain. -/
def evaluate_vanishing (d : EvaluationDomain) (x : FiniteFieldElement) :
    FiniteFieldElement :=
  d.points.foldl (fun acc a => acc.multiply (x.subtract a))
    (FiniteFieldElement.new_fielded 1 d.field)

end EvaluationDomain

/-- Model of `Transcript`: a single i128 state. -/
structure Transcript where
  state : Int
deriving DecidableEq

namespace Transcript

/-- Model of `Transcript::new`. -/
def new : Transcript := ⟨0⟩

/-- Rotate the 128-bit two's-complement pattern of an i128 left by one. -/
def rotl1 (v : Int) : Int :=
  let u := v % 2 ^ 128
  wrap128 (u * 2 % 2 ^ 128 + u / 2 ^ 127)

/-- Model of `absorb_i128`: wrapping-add the rotated value into the state
and hash. -/
def absorb_i128 (t : Transcript) (value : Int) : Transcript :=
  ⟨hash (wrap128 (t.state + rotl1 value))⟩

/-- Model of `challenge`: hash the state plus a domain-separation constant,
store it back, and reduce it into the field (with the truncated remainder
of `new_fielded`).  Returns the challenge and the updated transcript. -/
def challenge (t : Transcript) (field : FiniteField) :
    FiniteFieldElement × Transcript :=
  let s := hash (wrap128 (t.state + 0x9e3779b97f4a7c15))
  (FiniteFieldElement.new_fielded s field, ⟨s⟩)

end Transcript

/-- Doubling loop computing the least power of two that is at least n.
The first argument is structural-recursion fuel: starting from 1, fewer
than n doublings reach n, so the fuel of n supplied by
`next_power_of_two` never runs out for n ≥ 1. -/
def nextPow2Aux (n : Nat) : Nat → Nat → Nat
  | 0, power => power
  | fuel + 1, power => if n ≤ power then power else nextPow2Aux n fuel (power * 2)

/-- Model of `next_power_of_two` from `merkle_tree.rs`: 1 for n = 0, n
itself when n is already a power of two, and otherwise the next power of
two above n (Rust `usize::next_power_of_two`). -/
def next_power_of_two (n : Nat) : Nat :=
  if n = 0 then 1
  else if n &&& (n - 1) = 0 then n
  else nextPow2Aux n n 1

/-- Model of `MerkleTree`. -/
structure MerkleTree where
  root : Option Int
  nodes : List (List Int)
  padded_leaves : List FiniteFieldElement
deriving DecidableEq

/-- One level-combining pass of `MerkleTree::build`: hash consecutive
pairs.  The source's `chunks(2)` would panic on an odd-length level; built
levels always have power-of-two length, so the singleton case below is
unreachable there. -/
def combineLevel : List Int → List Int
  | a :: b :: rest => hash_two_inputs a b :: combineLevel rest
  | _ => []

/-- The level-building loop of `MerkleTree::build` with structural
recursion fuel: starting from the padded hash layer, repeatedly combine
until a single element remains, collecting every level (leaves first).
Combining at least halves the layer, so the fuel `l.length` supplied by
`buildLevels` never runs out. -/
def buildLevelsAux : Nat → List Int → List (List Int)
  | 0, l => [l]
  | fuel + 1, l =>
      if l.length ≤ 1 then [l]
      else l :: buildLevelsAux fuel (combineLevel l)

/-- The level list of a built Merkle tree. -/
def buildLevels (l : List Int) : List (List Int) :=
  buildLevelsAux l.length l

namespace MerkleTree

/-- Model of `MerkleTree::new`. -/
def new : MerkleTree := ⟨none, [], []⟩

/-- Model of `MerkleTree::build`: hash the elements, pad the hash layer to
the next power of two with 0, keep the padded field-element leaves, build
all levels and take the single element of the last level as root. -/
def build (elements : List FiniteFieldElement) : MerkleTree :=
  if elements = [] then ⟨none, [[]], []⟩
  else
    let hashes := elements.map (fun e => e.hash)
    let target_size := next_power_of_two hashes.length
    let padded_hashes := hashes ++ List.replicate (target_size - hashes.length) 0
    let padded :=
      elements ++
        List.replicate (target_size - elements.length) (FiniteFieldElement.new 0)
    let nodes := buildLevels padded_hashes
    ⟨((nodes.getLast?).getD []).getLast?, nodes, padded⟩

/-- Modelled from the spec: `MerkleTree::build_from_hashes` is called by
the prover but missing from the sources.  Per §4.6 and §4.10 it builds the
same padded power-of-two tree directly from the given row-leaf hashes. -/
def build_from_hashes (hashes : List Int) : MerkleTree :=
  if hashes = [] then ⟨none, [[]], []⟩
  else
    let target_size := next_power_of_two hashes.length
    let padded_hashes := hashes ++ List.replicate (target_size - hashes.length) 0
    let nodes := buildLevels padded_hashes
    ⟨((nodes.getLast?).getD []).getLast?, nodes, []⟩

/-- Model of `leaf_count`. -/
def leaf_count (t : MerkleTree) : Nat :=
  match t.nodes with
  | [] => 0
  | l0 :: _ => l0.length

/-- The level walk of `get_merkle_proof`: at each level of size > 1 push
the sibling hash and halve the index; at the final level push the root. -/
def proofWalk : List (List Int) → Nat → List Int
  | [], _ => []
  | level :: rest, idx =>
      if level.length = 1 then [level.getD 0 0]
      else
        let sibling_idx := if idx % 2 = 0 then idx + 1 else idx - 1
        level.getD sibling_idx 0 :: proofWalk rest (idx / 2)

/-- Model of `get_merkle_proof`: `None` for an out-of-range index.  The
source reads `nodes[0]`, which panics on a never-built tree; built trees
always have a leaf level. -/
def get_merkle_proof (t : MerkleTree) (index : Nat) : Option (List Int) :=
  if (t.nodes.headD []).length ≤ index then none
  else some (proofWalk t.nodes index)

end MerkleTree

/-- Model of `fold_once`: `none` models the two assertions (empty input,
odd length); otherwise out[i] = v[i] + beta * v[i + N/2]. -/
def fold_once (values : List FiniteFieldElement) (beta : FiniteFieldElement) :
    Option (List FiniteFieldElement) :=
  if values = [] then none
  else if values.length % 2 ≠ 0 then none
  else
    let half := values.length / 2
    some
      ((List.range half).map
        (fun i =>
          (values.getD i FiniteFieldElement.ZERO).add
            (beta.multiply (values.getD (i + half) FiniteFieldElement.ZERO))))

/-- Model of `Trace`: rows of i128 values. -/
structure Trace where
  trace : List (List Int)
  num_columns : Nat
deriving DecidableEq

namespace Trace

/-- Model of `num_rows`. -/
def num_rows (t : Trace) : Nat :=
  t.trace.length

/-- Model of `get`. -/
def get (t : Trace) (row col : Nat) : Option Int :=
  (t.trace.get? row).bind (fun r => r.get? col)

/-- Model of `get_column`.  The source indexes `row[col]`, panicking on a
short row; rectangular traces (the validated invariant of `Trace::new`)
never hit the default. -/
def get_column (t : Trace) (col : Nat) : List Int :=
  t.trace.map (fun row => row.getD col 0)

end Trace

/-- The row builder of `Trace::from_computation` for the Fibonacci
generator: step 0 and 1 are the seeded rows, and each later row is
[prev[1], prev[2], prev[1] + prev[2]]. -/
def fibCompute (a : Int) (step : Nat) (prev : List Int) : List Int :=
  if step = 0 then [0, a, a]
  else if step = 1 then [a, a, a]
  else [prev.getD 1 0, prev.getD 2 0, prev.getD 2 0 + prev.getD 1 0]

/-- The accumulation loop of `Trace::from_computation`: rows 0..n-1, each
computed from the previous row (or the all-zero initial state). -/
def fromComputationRows (compute : Nat → List Int → List Int) :
    Nat → List (List Int)
  | 0 => []
  | n + 1 =>
      let t := fromComputationRows compute n
      t ++ [compute n (if n = 0 then [0, 0, 0] else t.getD (n - 1) [])]

/-- Model of `fibonacci::generate_fibonacci_trace` (the `_b` argument of
the source is unused). -/
def generate_fibonacci_trace (num_steps : Nat) (a _b : Int) : Trace :=
  ⟨fromComputationRows (fibCompute a) num_steps, 3⟩

/-- Modelled from the spec: the `constants` module is not in the sources;
per §4.7 the default extension factor is 4. -/
def EXTENSION_FACTOR : Nat := 4

/-- Modelled from the spec: the `constants::DEFAULT_FIELD_SIZE` re-export
matches `FiniteFieldElement::DEFAULT_FIELD_SIZE`, 3 * 2^30 + 1. -/
def DEFAULT_FIELD_SIZE : Int := FiniteFieldElement.DEFAULT_FIELD_SIZE

/-- Model of `SamplingData`. -/
structure SamplingData where
  sample_points : List Nat
  sample_values : List (List FiniteFieldElement)
  constraint_values : List FiniteFieldElement
  merkle_proofs : List (List Int)
deriving DecidableEq

/-- Model of `StarkProof`. -/
structure StarkProof where
  trace_commitment : Int
  trace_size : Nat
  field : FiniteField
  eval_domain : EvaluationDomain
  sampling_data : SamplingData
  fri_layers : List (List FiniteFieldElement)
  fri_betas : List FiniteFieldElement
  composition_poly : Polynomial
  quotient_poly : Polynomial
deriving DecidableEq

/-- The challenge loop of `derive_sample_points_from_commitment`: each
challenge is reduced into [0, leaf_count) with a double remainder that
also maps negative challenge values into range. -/
def samplePointsLoop (t : Transcript) (field : FiniteField) (L : Int) :
    Nat → List Nat
  | 0 => []
  | n + 1 =>
      let ct := t.challenge field
      (((ct.1.value.tmod L) + L).tmod L).toNat ::
        samplePointsLoop ct.2 field L n

/-- Model of `derive_sample_points_from_commitment`: absorb the commitment
and the leaf count, then draw the requested number of indices. -/
def derive_sample_points_from_commitment (commitment : Int)
    (leaf_count : Nat) (num_samples : Nat) : List Nat :=
  let field : FiniteField := ⟨DEFAULT_FIELD_SIZE⟩
  let t := (Transcript.new.absorb_i128 commitment).absorb_i128 (leaf_count : Int)
  samplePointsLoop t field (leaf_count : Int) num_samples

/-- The challenge loop of `derive_fri_betas_from_commitment`. -/
def betasLoop (t : Transcript) (field : FiniteField) :
    Nat → List FiniteFieldElement
  | 0 => []
  | n + 1 =>
      let ct := t.challenge field
      ct.1 :: betasLoop ct.2 field n

/-- Model of `derive_fri_betas_from_commitment`. -/
def derive_fri_betas_from_commitment (commitment : Int) (num_rounds : Nat) :
    List FiniteFieldElement :=
  let field : FiniteField := ⟨DEFAULT_FIELD_SIZE⟩
  let t := Transcript.new.absorb_i128 commitment
  betasLoop t field num_rounds

/-- Model of `extend_trace` (low degree extension): interpolate every
column over steps 0..r-1 and evaluate it on the extended linear domain.
Indexing is in range for rectangular traces, where the source would
otherwise panic. -/
def extend_trace (trace : Trace) (field : FiniteField)
    (extension_factor : Nat) : List (List FiniteFieldElement) :=
  let extended_size := trace.num_rows * extension_factor
  let eval_domain := EvaluationDomain.new_linear field extended_size
  (List.range trace.num_columns).map
    (fun col =>
      let original_column := trace.get_column col
      let points := original_column.enum.map (fun sv => ((sv.1 : Int), sv.2))
      let poly := lagrange_interpolation points
      (List.range extended_size).map
        (fun i =>
          poly.evaluate ((eval_domain.element i).getD FiniteFieldElement.ZERO)))

/-- The row-leaf hashing of the prover: fold the hashes of all column
values of one extended row into an accumulator with the Merkle
combiner, starting from 0. -/
def rowLeafHashes (extended_trace : List (List FiniteFieldElement)) :
    List Int :=
  let extended_size := (extended_trace.headD []).length
  (List.range extended_size).map
    (fun i =>
      extended_trace.foldl
        (fun acc column =>
          hash_two_inputs acc (column.getD i FiniteFieldElement.ZERO).hash)
        0)

/-- Model of `create_fibonacci_constraint_poly`: residuals (step, F(step) -
F(step-1) - F(step-2)) for steps from 2 on, with zero residuals pinned at
steps 0 and 1, interpolated over the original domain.  The unused
column-polynomial interpolations of the source are dead code and
omitted. -/
def create_fibonacci_constraint_poly (trace : Trace) (field : FiniteField) :
    Polynomial × EvaluationDomain :=
  let original_size := trace.num_rows
  let eval_domain := EvaluationDomain.new_linear field original_size
  let head : List (Int × Int) :=
    (0, 0) :: (if 1 < original_size then [(1, 0)] else [])
  let tail : List (Int × Int) :=
    ((List.range original_size).drop 2).map
      (fun (step : Nat) =>
        ((step : Int),
          (trace.get step 2).getD 0 - (trace.get step 1).getD 0 -
            (trace.get step 0).getD 0))
  (lagrange_interpolation (head ++ tail), eval_domain)

/-- Model of `create_vanishing_polynomial`: the product of the linear
factors (x - a_i) over the domain points. -/
def create_vanishing_polynomial (domain : EvaluationDomain) : Polynomial :=
  domain.points.foldl
    (fun result point =>
      result.multiply
        (Polynomial.new_ff
          [point.negate, FiniteFieldElement.new_fielded 1 point.field]))
    (Polynomial.new [1])

/-- Model of `create_quotient_polynomial`: a zero or too-low-degree
composition polynomial short-circuits to the zero quotient; otherwise the
polynomials are divided and the quotient returned (`none` models the
panics of `div`). -/
def create_quotient_polynomial (constraint_poly vanishing_poly : Polynomial) :
    Option Polynomial :=
  if constraint_poly.degree = 0 ∧ 0 < constraint_poly.coefficients.length ∧
      (constraint_poly.coefficients.getD 0 FiniteFieldElement.ZERO).is_zero then
    some (Polynomial.new [0])
  else if constraint_poly.degree < vanishing_poly.degree then
    some (Polynomial.new [0])
  else
    (constraint_poly.div vanishing_poly).map (fun qr => qr.1)

/-- The FRI folding loop of the prover: fold once per beta, collecting the
layers, stopping early when a layer has length at most 1.  `none` models a
`fold_once` assertion failure. -/
def friLoop (betas : List FiniteFieldElement)
    (cur : List FiniteFieldElement) :
    Option (List (List FiniteFieldElement)) :=
  match betas with
  | [] => some []
  | beta :: rest =>
      (fold_once cur beta).bind
        (fun nxt =>
          if nxt.length ≤ 1 then some [nxt]
          else (friLoop rest nxt).map (fun more => nxt :: more))

/-- Model of `prove_fibonacci`: extend the trace, commit to the row-leaf
hashes, build the composition/vanishing/quotient polynomials, fold the
FRI layers from the last extended column, and return the proof with empty
sampling data.  `none` models the panics (`root().unwrap()`, division,
folding). -/
def prove_fibonacci (trace : Trace) (field : FiniteField) :
    Option StarkProof :=
  let extended_trace := extend_trace trace field EXTENSION_FACTOR
  let extended_size := (extended_trace.headD []).length
  let row_leaf_hashes := rowLeafHashes extended_trace
  let tree := MerkleTree.build_from_hashes row_leaf_hashes
  (tree.root).bind fun commitment =>
    let cd := create_fibonacci_constraint_poly trace field
    let vanishing_poly := create_vanishing_polynomial cd.2
    (create_quotient_polynomial cd.1 vanishing_poly).bind fun quotient_poly =>
      let leaf_count := tree.leaf_count
      let eval_leaves0 :=
        (List.range extended_size).map
          (fun i =>
            (extended_trace.getD (extended_trace.length - 1) []).getD i
              FiniteFieldElement.ZERO)
      let eval_leaves :=
        if eval_leaves0.length < leaf_count then
          eval_leaves0 ++
            List.replicate (leaf_count - eval_leaves0.length)
              FiniteFieldElement.ZERO
        else eval_leaves0
      let fri_betas := derive_fri_betas_from_commitment commitment 2
      (friLoop fri_betas eval_leaves).map fun rest =>
        { trace_commitment := commitment
          trace_size := trace.num_rows
          field := field
          eval_domain := cd.2
          sampling_data := ⟨[], [], [], []⟩
          fri_layers := eval_leaves :: rest
          fri_betas := fri_betas
          composition_poly := cd.1
          quotient_poly := quotient_poly }

/-- Model of `generate_merkle_proofs`: rebuild the row-leaf tree and look
up every sample point, answering a missing proof with the empty vector. -/
def generate_merkle_proofs (extended_trace : List (List FiniteFieldElement))
    (sample_points : List Nat) : List (List Int) :=
  let tree := MerkleTree.build_from_hashes (rowLeafHashes extended_trace)
  sample_points.map (fun pt => (tree.get_merkle_proof pt).getD [])

/-- The population step that `main.rs` and the prover test perform after
`prove_fibonacci`: derive the sample points from the commitment and the
Merkle leaf count, read the extended-trace row values at those points, and
attach the matching Merkle proofs. -/
def populate_sampling (prf : StarkProof) (trace : Trace)
    (num_samples : Nat) : StarkProof :=
  let extended_trace := extend_trace trace prf.field EXTENSION_FACTOR
  let leaf_count := next_power_of_two ((extended_trace.headD []).length)
  let sample_points :=
    derive_sample_points_from_commitment prf.trace_commitment leaf_count
      num_samples
  let merkle_proofs := generate_merkle_proofs extended_trace sample_points
  let sample_values :=
    sample_points.map
      (fun pt =>
        extended_trace.map (fun column => column.getD pt FiniteFieldElement.ZERO))
  { prf with
    sampling_data := ⟨sample_points, sample_values, [], merkle_proofs⟩ }

/-- The per-sample loop of `verify_fibonacci_constraints`: evaluate the
composition polynomial at the extended-domain point of each sample and
require zero; an out-of-range sample index panics (`none`). -/
def vfcLoop (trace_size : Nat) (field : FiniteField) (poly : Polynomial) :
    List Nat → Bool → Option Bool
  | [], valid => some valid
  | pt :: rest, valid =>
      let dom := EvaluationDomain.new_linear field (trace_size * EXTENSION_FACTOR)
      (dom.element pt).bind fun point =>
        vfcLoop trace_size field poly rest
          (valid && (poly.evaluate point).is_zero)

/-- Model of `verify_fibonacci_constraints`. -/
def verify_fibonacci_constraints (sample_points : List Nat)
    (trace_size : Nat) (field : FiniteField)
    (composition_poly : Polynomial) : Option Bool :=
  vfcLoop trace_size field composition_poly sample_points true

/-- The per-sample loop of `verify_quotient_polynomial`: at each sampled
point require C(x) = Q(x) * Z_H(x), with Z_H evaluated on the original
domain. -/
def vqpLoop (trace_size : Nat) (field : FiniteField)
    (composition_poly quotient_poly : Polynomial)
    (original_domain : EvaluationDomain) :
    List Nat → Bool → Option Bool
  | [], valid => some valid
  | pt :: rest, valid =>
      let dom := EvaluationDomain.new_linear field (trace_size * EXTENSION_FACTOR)
      (dom.element pt).bind fun point =>
        let constraint_value := composition_poly.evaluate point
        let vanishing_value := original_domain.evaluate_vanishing point
        let quotient_value := quotient_poly.evaluate point
        let expected := quotient_value.multiply vanishing_value
        vqpLoop trace_size field composition_poly quotient_poly
          original_domain rest (valid && (constraint_value == expected))

/-- Model of `verify_quotient_polynomial`. -/
def verify_quotient_polynomial (sample_points : List Nat) (trace_size : Nat)
    (field : FiniteField) (composition_poly quotient_poly : Polynomial) :
    Option Bool :=
  vqpLoop trace_size field composition_poly quotient_poly
    (EvaluationDomain.new_linear field trace_size) sample_points true

/-- Model of `verify_random_sampling`: both the constraint check and the
quotient check must pass. -/
def verify_random_sampling (proof : StarkProof) : Option Bool :=
  (verify_fibonacci_constraints proof.sampling_data.sample_points
      proof.trace_size proof.field proof.composition_poly).bind
    fun constraint_valid =>
      (verify_quotient_polynomial proof.sampling_data.sample_points
          proof.trace_size proof.field proof.composition_poly
          proof.quotient_poly).map
        fun quotient_valid => constraint_valid && quotient_valid

/-- The loop of `verify_merkle_proofs` over the zip of sample points and
Merkle proofs (Rust `zip` stops at the shorter of the two).  The source
reads `sample_values[i]` before anything else, panicking when it is
missing (`none`); an empty individual proof marks the proof invalid, and
otherwise the row-leaf hash is recomputed from the provided values and
folded through the path (all proof elements except the last), and must
reach the committed root. -/
def vmpLoop (commitment : Int)
    (sample_values : List (List FiniteFieldElement)) :
    List (Nat × List Int) → Nat → Bool → Option Bool
  | [], _, valid => some valid
  | (_, mp) :: rest, i, valid =>
      (sample_values.get? i).bind fun values =>
        if mp = [] then vmpLoop commitment sample_values rest (i + 1) false
        else
          let leaf_hash :=
            values.foldl (fun acc v => hash_two_inputs acc v.hash) 0
          let current_hash :=
            mp.dropLast.foldl (fun h sib => hash_two_inputs h sib) leaf_hash
          vmpLoop commitment sample_values rest (i + 1)
            (valid && (current_hash == commitment))

/-- Model of `verify_merkle_proofs`. -/
def verify_merkle_proofs (proof : StarkProof) : Option Bool :=
  vmpLoop proof.trace_commitment proof.sampling_data.sample_values
    (proof.sampling_data.sample_points.zip proof.sampling_data.merkle_proofs)
    0 true

/-- Model of `verify_proof`: refuse a proof with no sample points, then
require both the Merkle verification and the sampling verification. -/
def verify_proof (proof : StarkProof) : Option Bool :=
  if proof.sampling_data.sample_points = [] then some false
  else
    (verify_merkle_proofs proof).bind fun merkle_valid =>
      (verify_random_sampling proof).map fun constraint_valid =>
        merkle_valid && constraint_valid

/-- A populated adversarial proof: it carries one sample point but an
empty Merkle-proof vector, with the zero composition and quotient
polynomials over the default field. -/
def proofWithoutMerkleProofs : StarkProof :=
  { trace_commitment := 0
    trace_size := 1
    field := FiniteFieldElement.DEFAULT_FIELD
    eval_domain := EvaluationDomain.new_linear FiniteFieldElement.DEFAULT_FIELD 1
    sampling_data := ⟨[0], [], [], []⟩
    fri_layers := []
    fri_betas := []
    composition_poly := Polynomial.new [0]
    quotient_poly := Polynomial.new [0] }

/-- An adversarial proof whose sample-value vector is shorter than the
zipped point/proof list: one sample point and one (non-empty) Merkle
proof, but no sample values at all. -/
def proofShortSampleValues : StarkProof :=
  { trace_commitment := 0
    trace_size := 1
    field := FiniteFieldElement.DEFAULT_FIELD
    eval_domain := EvaluationDomain.new_linear FiniteFieldElement.DEFAULT_FIELD 1
    sampling_data := ⟨[0], [], [], [[5]]⟩
    fri_layers := []
    fri_betas := []
    composition_poly := Polynomial.new [0]
    quotient_poly := Polynomial.new [0] }

end Stark

/-! ## Bridging lemmas

The embedded field operations reduce with the truncated remainder `tmod`;
these lemmas relate them to `ZMod p` and record the canonical range. -/

open Stark

/-- The default prime as a natural number. -/
def defaultP : ℕ := 3221225473

/-- Interpretation of an embedded coefficient list as a polynomial over
`ZMod p`, constant term first (Horner form). -/
noncomputable def toPoly (p : ℕ) (l : List Stark.FiniteFieldElement) :
    Polynomial (ZMod p) :=
  l.foldr
    (fun c acc => Polynomial.C ((c.value : ZMod p)) + Polynomial.X * acc) 0

/-- Coefficient lists whose entries live in the field with prime p and are
canonically reduced into [0, p). -/
def canonList (p : ℕ) (l : List Stark.FiniteFieldElement) : Prop :=
  ∀ idx, idx < l.length →
    (l.getD idx Stark.FiniteFieldElement.ZERO).field.prime = (p : Int) ∧
      0 ≤ (l.getD idx Stark.FiniteFieldElement.ZERO).value ∧
      (l.getD idx Stark.FiniteFieldElement.ZERO).value < (p : Int)

/-- Coefficient lists all of whose entries carry the default field (the
only field the interpolator ever constructs). -/
def allD (l : List Stark.FiniteFieldElement) : Prop :=
  ∀ c ∈ l, c.field = Stark.FiniteFieldElement.DEFAULT_FIELD

theorem defaultP_cast : (defaultP : Int) = FiniteFieldElement.DEFAULT_FIELD_SIZE := by
  norm_num [defaultP, FiniteFieldElement.DEFAULT_FIELD_SIZE]

/-- Squaring step for verified modular exponentiation chains. -/
theorem sqStep {p : ℕ} (a b c : ZMod p) (k : ℕ) (h : a ^ (2 ^ k : ℕ) = b)
    (hc : b * b = c) : a ^ (2 ^ (k + 1) : ℕ) = c := by
  have h2 : (2 : ℕ) ^ (k + 1) = 2 ^ k * 2 := pow_succ 2 k
  rw [h2, pow_mul, h, pow_two, hc]

theorem tmod_intCast (a : Int) (p : ℕ) :
    ((a.tmod (p : Int) : Int) : ZMod p) = (a : ZMod p) := by
  rw [Int.tmod_def a (p : Int)]
  push_cast
  simp

theorem int_eq_of_cast_eq {x y : Int} {p : ℕ} (hx0 : 0 ≤ x)
    (hx1 : x < (p : Int)) (hy0 : 0 ≤ y) (hy1 : y < (p : Int))
    (h : (x : ZMod p) = (y : ZMod p)) : x = y := by
  have hmod : x % (p : Int) = y % (p : Int) :=
    (ZMod.intCast_eq_intCast_iff x y p).mp h
  rwa [Int.emod_eq_of_lt hx0 hx1, Int.emod_eq_of_lt hy0 hy1] at hmod

/-- Values stay in canonical range under `new_fielded` for non-negative
inputs and a positive prime. -/
theorem new_fielded_range {v : Int} {f : FiniteField} (hp : 0 < f.prime)
    (hv : 0 ≤ v) :
    0 ≤ (FiniteFieldElement.new_fielded v f).value ∧
      (FiniteFieldElement.new_fielded v f).value < f.prime :=
  ⟨Int.tmod_nonneg _ hv, Int.tmod_lt_of_pos _ hp⟩

theorem new_fielded_field (v : Int) (f : FiniteField) :
    (FiniteFieldElement.new_fielded v f).field = f := rfl

theorem multiply_field (a b : FiniteFieldElement) :
    (a.multiply b).field = a.field := rfl

/-- Cast of a `multiply` value into `ZMod p` of the operand's field. -/
theorem multiply_cast (a b : FiniteFieldElement) (p : ℕ)
    (hf : a.field.prime = (p : Int)) :
    (((a.multiply b).value : Int) : ZMod p) =
      (a.value : ZMod p) * (b.value : ZMod p) := by
  show (((((a.value * b.value).tmod a.field.prime)).tmod a.field.prime : Int) : ZMod p) = _
  rw [hf, tmod_intCast, tmod_intCast]
  push_cast
  ring

theorem multiply_range (a b : FiniteFieldElement) (hp : 0 < a.field.prime)
    (ha : 0 ≤ a.value) (hb : 0 ≤ b.value) :
    0 ≤ (a.multiply b).value ∧ (a.multiply b).value < a.field.prime :=
  new_fielded_range hp (Int.tmod_nonneg _ (mul_nonneg ha hb))

theorem subtract_range (a b : FiniteFieldElement) (hp : 0 < a.field.prime)
    (hnn : 0 ≤ a.value + a.field.prime - b.value) :
    0 ≤ (a.subtract b).value ∧ (a.subtract b).value < a.field.prime :=
  new_fielded_range hp (Int.tmod_nonneg _ hnn)

/-- The `powAux` loop computes `result * base ^ exp` in `ZMod p`, keeps
the result's field and, for non-negative operands, the canonical range,
provided the fuel covers the exponent (exp < 2^fuel). -/
theorem powAux_invariant (p : ℕ) (hp : 0 < (p : Int)) :
    ∀ (fuel exp : Nat) (result base : FiniteFieldElement),
      exp < 2 ^ fuel →
      result.field.prime = (p : Int) → base.field.prime = (p : Int) →
      0 ≤ result.value → result.value < (p : Int) → 0 ≤ base.value →
      (FiniteFieldElement.powAux fuel result base exp).field = result.field ∧
        0 ≤ (FiniteFieldElement.powAux fuel result base exp).value ∧
        (FiniteFieldElement.powAux fuel result base exp).value < (p : Int) ∧
        (((FiniteFieldElement.powAux fuel result base exp).value : Int) :
            ZMod p) =
          (result.value : ZMod p) * (base.value : ZMod p) ^ exp := by
  intro fuel
  induction fuel with
  | zero =>
    intro exp result base hfuel hrf hbf hr0 hr1 hb0
    have hz : exp = 0 := by omega
    subst hz
    simp [FiniteFieldElement.powAux, hr0, hr1]
  | succ f ih =>
    intro exp result base hfuel hrf hbf hr0 hr1 hb0
    rw [FiniteFieldElement.powAux]
    by_cases hz : exp = 0
    · simp [hz, hr0, hr1]
    · rw [if_neg hz]
      have hhalf : exp / 2 < 2 ^ f := by
        rw [pow_succ] at hfuel
        omega
      have hbf2 : (base.multiply base).field.prime = (p : Int) := by
        rw [multiply_field]; exact hbf
      have hb20 : 0 ≤ (base.multiply base).value := by
        have := multiply_range base base (by rw [hbf]; exact hp) hb0 hb0
        exact this.1
      have hrnew_field :
          (if exp % 2 = 1 then result.multiply base else result).field.prime
            = (p : Int) := by
        by_cases h : exp % 2 = 1 <;> simp [h, multiply_field, hrf]
      have hrnew_range :
          0 ≤ (if exp % 2 = 1 then result.multiply base else result).value ∧
            (if exp % 2 = 1 then result.multiply base else result).value < (p : Int) := by
        by_cases h : exp % 2 = 1
        · have hmr := multiply_range result base (by rw [hrf]; exact hp) hr0 hb0
          rw [hrf] at hmr
          simpa [h] using hmr
        · simpa [h] using ⟨hr0, hr1⟩
      obtain ⟨ihf, ih0, ih1, ihc⟩ :=
        ih (exp / 2)
          (if exp % 2 = 1 then result.multiply base else result)
          (base.multiply base) hhalf hrnew_field hbf2 hrnew_range.1
          hrnew_range.2 hb20
      refine ⟨?_, ih0, ih1, ?_⟩
      · rw [ihf]
        by_cases h : exp % 2 = 1 <;> simp [h, multiply_field]
      · rw [ihc]
        have hsq : (((base.multiply base).value : Int) : ZMod p) =
            (base.value : ZMod p) * (base.value : ZMod p) :=
          multiply_cast base base p hbf
        have hodd :
            ((if exp % 2 = 1 then result.multiply base else result).value :
                ZMod p) =
              (result.value : ZMod p) *
                (base.value : ZMod p) ^ (exp % 2) := by
          by_cases h : exp % 2 = 1
          · simp [h, multiply_cast result base p hrf]
          · have h0 : exp % 2 = 0 := by omega
            simp [h, h0]
        rw [hodd, hsq]
        have hexp : exp = exp % 2 + 2 * (exp / 2) := by omega
        conv_rhs => rw [hexp]
        rw [pow_add, pow_mul]
        ring

/-- Field, range and `ZMod` value of `pow` for canonical operands and an
i128-range exponent. -/
theorem pow_spec (p : ℕ) (hp : 0 < (p : Int)) (a : FiniteFieldElement)
    (hf : a.field.prime = (p : Int)) (ha : 0 ≤ a.value) (e : Int)
    (he : e.toNat < 2 ^ 128) :
    (a.pow e).field = a.field ∧ 0 ≤ (a.pow e).value ∧
      (a.pow e).value < (p : Int) ∧
      (((a.pow e).value : Int) : ZMod p) = (a.value : ZMod p) ^ e.toNat := by
  have hinit := new_fielded_range (f := a.field) (v := 1) (by rw [hf]; exact hp)
    (by norm_num)
  rw [hf] at hinit
  obtain ⟨hfld, h0, h1, hc⟩ :=
    powAux_invariant p hp 128 e.toNat (FiniteFieldElement.new_fielded 1 a.field)
      a he (by rw [new_fielded_field, hf]) hf hinit.1 hinit.2 ha
  refine ⟨hfld, h0, h1, ?_⟩
  show (((FiniteFieldElement.powAux 128 (FiniteFieldElement.new_fielded 1 a.field)
      a e.toNat).value : Int) : ZMod p) = _
  rw [hc]
  have hone : (((FiniteFieldElement.new_fielded 1 a.field).value : Int) : ZMod p) = 1 := by
    show (((1 : Int).tmod a.field.prime : Int) : ZMod p) = 1
    rw [hf, tmod_intCast]
    norm_num
  rw [hone, one_mul]

theorem prime_3221225473 : Nat.Prime 3221225473 := by
  have e0 : (5 : ZMod 3221225473) ^ (2^0 : Nat) = 5 := by norm_num
  have e1 : (5 : ZMod 3221225473) ^ (2^1 : Nat) = 25 := sqStep _ _ _ _ e0 (by decide)
  have e2 : (5 : ZMod 3221225473) ^ (2^2 : Nat) = 625 := sqStep _ _ _ _ e1 (by decide)
  have e3 : (5 : ZMod 3221225473) ^ (2^3 : Nat) = 390625 := sqStep _ _ _ _ e2 (by decide)
  have e4 : (5 : ZMod 3221225473) ^ (2^4 : Nat) = 1190293394 := sqStep _ _ _ _ e3 (by decide)
  have e5 : (5 : ZMod 3221225473) ^ (2^5 : Nat) = 2658181409 := sqStep _ _ _ _ e4 (by decide)
  have e6 : (5 : ZMod 3221225473) ^ (2^6 : Nat) = 2609614933 := sqStep _ _ _ _ e5 (by decide)
  have e7 : (5 : ZMod 3221225473) ^ (2^7 : Nat) = 3182078740 := sqStep _ _ _ _ e6 (by decide)
  have e8 : (5 : ZMod 3221225473) ^ (2^8 : Nat) = 898048269 := sqStep _ _ _ _ e7 (by decide)
  have e9 : (5 : ZMod 3221225473) ^ (2^9 : Nat) = 3004042235 := sqStep _ _ _ _ e8 (by decide)
  have e10 : (5 : ZMod 3221225473) ^ (2^10 : Nat) = 2869428413 := sqStep _ _ _ _ e9 (by decide)
  have e11 : (5 : ZMod 3221225473) ^ (2^11 : Nat) = 829835748 := sqStep _ _ _ _ e10 (by decide)
  have e12 : (5 : ZMod 3221225473) ^ (2^12 : Nat) = 784716921 := sqStep _ _ _ _ e11 (by decide)
  have e13 : (5 : ZMod 3221225473) ^ (2^13 : Nat) = 590197985 := sqStep _ _ _ _ e12 (by decide)
  have e14 : (5 : ZMod 3221225473) ^ (2^14 : Nat) = 2524259225 := sqStep _ _ _ _ e13 (by decide)
  have e15 : (5 : ZMod 3221225473) ^ (2^15 : Nat) = 2766529116 := sqStep _ _ _ _ e14 (by decide)
  have e16 : (5 : ZMod 3221225473) ^ (2^16 : Nat) = 2468311158 := sqStep _ _ _ _ e15 (by decide)
  have e17 : (5 : ZMod 3221225473) ^ (2^17 : Nat) = 20925706 := sqStep _ _ _ _ e16 (by decide)
  have e18 : (5 : ZMod 3221225473) ^ (2^18 : Nat) = 1444475235 := sqStep _ _ _ _ e17 (by decide)
  have e19 : (5 : ZMod 3221225473) ^ (2^19 : Nat) = 2207243129 := sqStep _ _ _ _ e18 (by decide)
  have e20 : (5 : ZMod 3221225473) ^ (2^20 : Nat) = 2838507500 := sqStep _ _ _ _ e19 (by decide)
  have e21 : (5 : ZMod 3221225473) ^ (2^21 : Nat) = 1147292615 := sqStep _ _ _ _ e20 (by decide)
  have e22 : (5 : ZMod 3221225473) ^ (2^22 : Nat) = 2054098098 := sqStep _ _ _ _ e21 (by decide)
  have e23 : (5 : ZMod 3221225473) ^ (2^23 : Nat) = 2632611347 := sqStep _ _ _ _ e22 (by decide)
  have e24 : (5 : ZMod 3221225473) ^ (2^24 : Nat) = 955475771 := sqStep _ _ _ _ e23 (by decide)
  have e25 : (5 : ZMod 3221225473) ^ (2^25 : Nat) = 1656619387 := sqStep _ _ _ _ e24 (by decide)
  have e26 : (5 : ZMod 3221225473) ^ (2^26 : Nat) = 1808672996 := sqStep _ _ _ _ e25 (by decide)
  have e27 : (5 : ZMod 3221225473) ^ (2^27 : Nat) = 821039136 := sqStep _ _ _ _ e26 (by decide)
  have e28 : (5 : ZMod 3221225473) ^ (2^28 : Nat) = 814403528 := sqStep _ _ _ _ e27 (by decide)
  have e29 : (5 : ZMod 3221225473) ^ (2^29 : Nat) = 1610563585 := sqStep _ _ _ _ e28 (by decide)
  have e30 : (5 : ZMod 3221225473) ^ (2^30 : Nat) = 1610563584 := sqStep _ _ _ _ e29 (by decide)
  apply lucas_primality 3221225473 5
  · show (5 : ZMod 3221225473) ^ (3221225473 - 1) = 1
    have hm : (3221225473 - 1 : ℕ) = 2 ^ 30 * 3 := by norm_num
    rw [hm, pow_mul, e30]
    decide
  · intro q hq hdvd
    have hm : (3221225473 - 1 : ℕ) = 2 ^ 30 * 3 := by norm_num
    rw [hm] at hdvd
    rcases (Nat.Prime.dvd_mul hq).mp hdvd with h2 | h3
    · have hq2 : q = 2 := (Nat.prime_dvd_prime_iff_eq hq Nat.prime_two).mp
        (Nat.Prime.dvd_of_dvd_pow hq h2)
      subst hq2
      have hdiv : (3221225473 - 1) / 2 = 2 ^ 29 * 3 := by norm_num
      rw [hdiv, pow_mul, e29]
      decide
    · have hq3 : q = 3 := (Nat.prime_dvd_prime_iff_eq hq Nat.prime_three).mp h3
      subst hq3
      have hdiv : (3221225473 - 1) / 3 = 2 ^ 30 := by norm_num
      rw [hdiv, e30]
      decide

instance factPrimeDefaultP : Fact (Nat.Prime defaultP) :=
  ⟨prime_3221225473⟩

/-- C5 -- For every non-zero element of the default prime field p =
3 * 2^30 + 1 with canonical value in [0, p), `inverse` is `pow(p - 2)` and
`multiply` by the inverse yields the field element 1. -/
theorem multiply_inverse_eq_one (a : FiniteFieldElement)
    (hf : a.field = FiniteFieldElement.DEFAULT_FIELD) (h0 : 0 ≤ a.value)
    (h1 : a.value < FiniteFieldElement.DEFAULT_FIELD_SIZE)
    (hnz : a.is_zero = false) :
    a.inverse = a.pow (FiniteFieldElement.DEFAULT_FIELD_SIZE - 2) ∧
      a.multiply a.inverse = ⟨1, a.field⟩ := by
  have hprime : a.field.prime = (defaultP : Int) := by
    rw [hf, defaultP_cast]; rfl
  have hp : (0 : Int) < (defaultP : Int) := by
    rw [defaultP_cast]; norm_num [FiniteFieldElement.DEFAULT_FIELD_SIZE]
  have hinv : a.inverse = a.pow (FiniteFieldElement.DEFAULT_FIELD_SIZE - 2) := by
    show a.pow (a.field.prime - 2) = _
    rw [hf]
    rfl
  refine ⟨hinv, ?_⟩
  have hvz : a.value ≠ 0 := by
    simpa [FiniteFieldElement.is_zero, decide_eq_false_iff_not] using hnz
  obtain ⟨hifld, hi0, hi1, hic⟩ :=
    pow_spec defaultP hp a hprime h0 (a.field.prime - 2)
      (by rw [hprime]; norm_num [defaultP])
  have hcastnz : (a.value : ZMod defaultP) ≠ 0 := by
    intro hzero
    have hdvd := (ZMod.intCast_zmod_eq_zero_iff_dvd a.value defaultP).mp hzero
    have habs : a.value = 0 := by
      rcases hdvd with ⟨k, hk⟩
      have h1d : a.value < (defaultP : Int) := by rwa [defaultP_cast]
      have : k = 0 := by nlinarith
      simp [hk, this]
    exact hvz habs
  have hexp : (a.field.prime - 2).toNat = defaultP - 2 := by
    rw [hprime]
    have hdp : defaultP = 3221225473 := rfl
    omega
  have hfermat : (a.value : ZMod defaultP) ^ (defaultP - 2) *
      (a.value : ZMod defaultP) = 1 := by
    have := ZMod.pow_card_sub_one_eq_one hcastnz
    calc (a.value : ZMod defaultP) ^ (defaultP - 2) * (a.value : ZMod defaultP)
        = (a.value : ZMod defaultP) ^ (defaultP - 2 + 1) := by rw [pow_succ]
      _ = (a.value : ZMod defaultP) ^ (defaultP - 1) := by norm_num [defaultP]
      _ = 1 := this
  have hmc : (((a.multiply a.inverse).value : Int) : ZMod defaultP) =
      (1 : ZMod defaultP) := by
    rw [multiply_cast a a.inverse defaultP hprime]
    show (a.value : ZMod defaultP) * (((a.pow (a.field.prime - 2)).value : Int) : ZMod defaultP) = 1
    rw [hic, hexp, mul_comm]
    exact hfermat
  have hrange := multiply_range a a.inverse (by rw [hprime]; exact hp)
    h0 (by show 0 ≤ (a.pow (a.field.prime - 2)).value; exact hi0)
  rw [hprime] at hrange
  have hone : ((1 : Int) : ZMod defaultP) = (1 : ZMod defaultP) := by norm_num
  have hval : (a.multiply a.inverse).value = 1 :=
    int_eq_of_cast_eq hrange.1 hrange.2 (by norm_num)
      (by rw [defaultP_cast]; norm_num [FiniteFieldElement.DEFAULT_FIELD_SIZE])
      (by rw [hmc, hone])
  have hfld : (a.multiply a.inverse).field = a.field := multiply_field _ _
  cases hmul : a.multiply a.inverse with
  | mk v fld =>
    rw [hmul] at hval hfld
    simp at hval hfld
    rw [hval, hfld]

/-- Witness for C5 at the concrete element 2 of the default field. -/
theorem multiply_inverse_eq_one_witness :
    ((FiniteFieldElement.new 2).field = FiniteFieldElement.DEFAULT_FIELD ∧
        0 ≤ (FiniteFieldElement.new 2).value ∧
        (FiniteFieldElement.new 2).value < FiniteFieldElement.DEFAULT_FIELD_SIZE ∧
        (FiniteFieldElement.new 2).is_zero = false) ∧
      (FiniteFieldElement.new 2).multiply (FiniteFieldElement.new 2).inverse =
        ⟨1, (FiniteFieldElement.new 2).field⟩ :=
  ⟨⟨by decide, by decide, by decide, by decide⟩,
    (multiply_inverse_eq_one (FiniteFieldElement.new 2) (by decide) (by decide)
      (by decide) (by decide)).2⟩

/-- C9 -- `pow` with a non-positive exponent (zero or negative) skips the
square-and-multiply loop and returns the freshly constructed unit element
of the element's field. -/
theorem pow_nonpositive_exponent_one (a : FiniteFieldElement) (e : Int)
    (he : e ≤ 0) :
    a.pow e = FiniteFieldElement.new_fielded 1 a.field := by
  show FiniteFieldElement.powAux 128 (FiniteFieldElement.new_fielded 1 a.field)
    a e.toNat = _
  rw [Int.toNat_of_nonpos he]
  rfl

/-- Witness for C9 at exponent -5 on the element 2. -/
theorem pow_nonpositive_exponent_one_witness :
    ((-5 : Int) ≤ 0) ∧
      (FiniteFieldElement.new 2).pow (-5) =
        FiniteFieldElement.new_fielded 1 (FiniteFieldElement.new 2).field :=
  ⟨by decide, pow_nonpositive_exponent_one (FiniteFieldElement.new 2) (-5) (by decide)⟩

/-- C10 -- `fold_once` rejects the empty vector (the source assertion
fails, modelled by `none`) even though 0 is even, and on every non-empty
even-length input of length N it returns exactly N/2 values with
out[i] = v[i] + beta * v[i + N/2]. -/
theorem fold_once_spec :
    (∀ beta : FiniteFieldElement, fold_once [] beta = none) ∧
      (∀ (values : List FiniteFieldElement) (beta : FiniteFieldElement),
        values ≠ [] → values.length % 2 = 0 →
        ∃ out, fold_once values beta = some out ∧
          out.length = values.length / 2 ∧
          ∀ i, i < values.length / 2 →
            out.get? i = some
              ((values.getD i FiniteFieldElement.ZERO).add
                (beta.multiply
                  (values.getD (i + values.length / 2) FiniteFieldElement.ZERO)))) := by
  constructor
  · intro beta
    rfl
  · intro values beta hne heven
    refine
      ⟨(List.range (values.length / 2)).map
          (fun i =>
            (values.getD i FiniteFieldElement.ZERO).add
              (beta.multiply
                (values.getD (i + values.length / 2) FiniteFieldElement.ZERO))),
        ?_, ?_, ?_⟩
    · simp [fold_once, hne, heven]
    · simp
    · intro i hi
      rw [List.get?_eq_getElem?, List.getElem?_map, List.getElem?_range hi]
      rfl

/-- Witness for C10 on the concrete even-length input [1, 2, 3, 4] with
beta = 3. -/
theorem fold_once_spec_witness :
    ([FiniteFieldElement.new 1, FiniteFieldElement.new 2,
        FiniteFieldElement.new 3, FiniteFieldElement.new 4] ≠
          ([] : List FiniteFieldElement)) ∧
      ∃ out,
        fold_once
            [FiniteFieldElement.new 1, FiniteFieldElement.new 2,
              FiniteFieldElement.new 3, FiniteFieldElement.new 4]
            (FiniteFieldElement.new 3) = some out ∧
          out.length = 2 ∧
          ∀ i, i < 2 →
            out.get? i = some
              (([FiniteFieldElement.new 1, FiniteFieldElement.new 2,
                  FiniteFieldElement.new 3,
                  FiniteFieldElement.new 4].getD i FiniteFieldElement.ZERO).add
                ((FiniteFieldElement.new 3).multiply
                  ([FiniteFieldElement.new 1, FiniteFieldElement.new 2,
                      FiniteFieldElement.new 3,
                      FiniteFieldElement.new 4].getD (i + 2)
                    FiniteFieldElement.ZERO))) :=
  ⟨by decide,
    fold_once_spec.2
      [FiniteFieldElement.new 1, FiniteFieldElement.new 2,
        FiniteFieldElement.new 3, FiniteFieldElement.new 4]
      (FiniteFieldElement.new 3) (by decide) (by decide)⟩

theorem combineLevel_length (l : List Int) :
    (combineLevel l).length = l.length / 2 := by
  match l with
  | [] => rfl
  | [a] => simp [combineLevel]
  | a :: b :: rest =>
      simp only [combineLevel, List.length_cons]
      rw [combineLevel_length rest]
      omega

/-- C6 counterexample -- `FiniteFieldElement::new` reduces with the Rust
truncated remainder, so the negative input -1 produces the value -1, which
is not in [0, p): the claimed invariant fails for negative constructor
inputs. -/
theorem new_negative_value_not_in_range :
    ¬ (0 ≤ (FiniteFieldElement.new (-1)).value ∧
        (FiniteFieldElement.new (-1)).value <
          FiniteFieldElement.DEFAULT_FIELD_SIZE) := by
  decide

/-- The `powAux` loop preserves the field and the canonical range of the
accumulator for a non-negative base, for any fuel and exponent. -/
theorem powAux_range :
    ∀ (fuel exp : Nat) (result base : FiniteFieldElement),
      0 < result.field.prime → 0 ≤ result.value →
      result.value < result.field.prime → 0 ≤ base.value →
      result.field = base.field →
      (FiniteFieldElement.powAux fuel result base exp).field = result.field ∧
        0 ≤ (FiniteFieldElement.powAux fuel result base exp).value ∧
        (FiniteFieldElement.powAux fuel result base exp).value <
          result.field.prime := by
  intro fuel
  induction fuel with
  | zero =>
    intro exp result base hp h0 h1 hb0 hfe
    exact ⟨rfl, h0, h1⟩
  | succ f ih =>
    intro exp result base hp h0 h1 hb0 hfe
    rw [FiniteFieldElement.powAux]
    by_cases hz : exp = 0
    · simp [hz, h0, h1]
    · rw [if_neg hz]
      have hb20 : 0 ≤ (base.multiply base).value :=
        Int.tmod_nonneg _ (Int.tmod_nonneg _ (mul_nonneg hb0 hb0))
      by_cases hodd : exp % 2 = 1
      · have hmr := multiply_range result base hp h0 hb0
        have hfld : (result.multiply base).field = result.field :=
          multiply_field _ _
        have := ih (exp / 2) (result.multiply base) (base.multiply base)
          (by rw [hfld]; exact hp) hmr.1 (by rw [hfld]; exact hmr.2) hb20
          (by rw [hfld, multiply_field, hfe])
        rw [hfld] at this
        simpa [hodd] using this
      · have := ih (exp / 2) result (base.multiply base) hp h0 h1 hb20
          (by rw [multiply_field, hfe])
        simpa [hodd] using this

/-- Canonical range of `pow` for canonical operands, any exponent. -/
theorem pow_range (a : FiniteFieldElement) (e : Int)
    (hp : 0 < a.field.prime) (h0 : 0 ≤ a.value) :
    (a.pow e).field = a.field ∧ 0 ≤ (a.pow e).value ∧
      (a.pow e).value < a.field.prime := by
  have hinit := new_fielded_range (f := a.field) (v := 1) hp (by norm_num)
  have := powAux_range 128 e.toNat (FiniteFieldElement.new_fielded 1 a.field) a
    hp hinit.1 hinit.2 h0 rfl
  exact this

set_option maxRecDepth 8000 in
/-- C6 amended -- every element built by `new`/`new_fielded` from a
non-negative input, and by `add`, `subtract`, `multiply`, `pow`,
`inverse`, `negate` from canonical elements of a positive-prime field,
has its value in [0, p); the transcript's `challenge` does not guarantee
this: its value is the hash state reduced with a truncated remainder, and
already the first challenge drawn from a fresh transcript is negative. -/
theorem field_ops_value_in_range :
    (∀ v : Int, 0 ≤ v →
      0 ≤ (FiniteFieldElement.new v).value ∧
        (FiniteFieldElement.new v).value <
          FiniteFieldElement.DEFAULT_FIELD_SIZE) ∧
    (∀ (v : Int) (f : FiniteField), 0 < f.prime → 0 ≤ v →
      0 ≤ (FiniteFieldElement.new_fielded v f).value ∧
        (FiniteFieldElement.new_fielded v f).value < f.prime) ∧
    (∀ a b : FiniteFieldElement, 0 < a.field.prime → 0 ≤ a.value →
      0 ≤ b.value →
      0 ≤ (a.add b).value ∧ (a.add b).value < a.field.prime) ∧
    (∀ a b : FiniteFieldElement, 0 < a.field.prime → 0 ≤ a.value →
      b.value < a.field.prime →
      0 ≤ (a.subtract b).value ∧ (a.subtract b).value < a.field.prime) ∧
    (∀ a b : FiniteFieldElement, 0 < a.field.prime → 0 ≤ a.value →
      0 ≤ b.value →
      0 ≤ (a.multiply b).value ∧ (a.multiply b).value < a.field.prime) ∧
    (∀ (a : FiniteFieldElement) (e : Int), 0 < a.field.prime → 0 ≤ a.value →
      0 ≤ (a.pow e).value ∧ (a.pow e).value < a.field.prime) ∧
    (∀ a : FiniteFieldElement, 0 < a.field.prime → 0 ≤ a.value →
      0 ≤ a.inverse.value ∧ a.inverse.value < a.field.prime) ∧
    (∀ a : FiniteFieldElement, 0 < a.field.prime → 0 ≤ a.value →
      a.value ≤ a.field.prime →
      0 ≤ a.negate.value ∧ a.negate.value < a.field.prime) ∧
    ((Transcript.new.challenge FiniteFieldElement.DEFAULT_FIELD).1.value < 0) := by
  refine ⟨?_, ?_, ?_, ?_, ?_, ?_, ?_, ?_, ?_⟩
  · intro v hv
    exact new_fielded_range (by norm_num [FiniteFieldElement.DEFAULT_FIELD,
      FiniteFieldElement.DEFAULT_FIELD_SIZE]) hv
  · intro v f hp hv
    exact new_fielded_range hp hv
  · intro a b hp ha hb
    exact new_fielded_range hp (Int.tmod_nonneg _ (by positivity))
  · intro a b hp ha hb
    refine new_fielded_range hp (Int.tmod_nonneg _ (by omega))
  · intro a b hp ha hb
    exact multiply_range a b hp ha hb
  · intro a e hp ha
    exact (pow_range a e hp ha).2
  · intro a hp ha
    exact (pow_range a (a.field.prime - 2) hp ha).2
  · intro a hp ha hle
    exact new_fielded_range hp (Int.tmod_nonneg _ (by omega))
  · decide

/-- Witness for the amended C6 at concrete inputs: 7 into the default
field, and 3 + 4, 3 - 4, 3 * 4, 3^9, inverse and negate on canonical
elements of the field with prime 5. -/
theorem field_ops_value_in_range_witness :
    (0 ≤ (FiniteFieldElement.new 7).value ∧
      (FiniteFieldElement.new 7).value <
        FiniteFieldElement.DEFAULT_FIELD_SIZE) ∧
    (0 ≤ ((FiniteFieldElement.new_fielded 3 ⟨5⟩).add
        (FiniteFieldElement.new_fielded 4 ⟨5⟩)).value ∧
      ((FiniteFieldElement.new_fielded 3 ⟨5⟩).add
        (FiniteFieldElement.new_fielded 4 ⟨5⟩)).value <
        (FiniteFieldElement.new_fielded 3 ⟨5⟩).field.prime) ∧
    (0 ≤ ((FiniteFieldElement.new_fielded 3 ⟨5⟩).subtract
        (FiniteFieldElement.new_fielded 4 ⟨5⟩)).value ∧
      ((FiniteFieldElement.new_fielded 3 ⟨5⟩).subtract
        (FiniteFieldElement.new_fielded 4 ⟨5⟩)).value <
        (FiniteFieldElement.new_fielded 3 ⟨5⟩).field.prime) ∧
    (0 ≤ ((FiniteFieldElement.new_fielded 3 ⟨5⟩).pow 9).value ∧
      ((FiniteFieldElement.new_fielded 3 ⟨5⟩).pow 9).value <
        (FiniteFieldElement.new_fielded 3 ⟨5⟩).field.prime) ∧
    (0 ≤ (FiniteFieldElement.new_fielded 3 ⟨5⟩).inverse.value ∧
      (FiniteFieldElement.new_fielded 3 ⟨5⟩).inverse.value <
        (FiniteFieldElement.new_fielded 3 ⟨5⟩).field.prime) ∧
    (0 ≤ (FiniteFieldElement.new_fielded 3 ⟨5⟩).negate.value ∧
      (FiniteFieldElement.new_fielded 3 ⟨5⟩).negate.value <
        (FiniteFieldElement.new_fielded 3 ⟨5⟩).field.prime) :=
  ⟨field_ops_value_in_range.1 7 (by decide),
    field_ops_value_in_range.2.2.1 _ _ (by decide) (by decide) (by decide),
    field_ops_value_in_range.2.2.2.1 _ _ (by decide) (by decide) (by decide),
    field_ops_value_in_range.2.2.2.2.2.1 _ 9 (by decide) (by decide),
    field_ops_value_in_range.2.2.2.2.2.2.1 _ (by decide) (by decide),
    field_ops_value_in_range.2.2.2.2.2.2.2.1 _ (by decide) (by decide) (by decide)⟩

/-- C7 -- the verifier accepts a populated proof that carries no Merkle
proofs at all: `verify_merkle_proofs` iterates the zip of sample points
and Merkle proofs, which is empty when the Merkle-proof vector is empty,
so every Merkle check is silently skipped and the proof verifies. -/
theorem verify_accepts_populated_without_merkle_proofs :
    proofWithoutMerkleProofs.sampling_data.sample_points ≠ [] ∧
      proofWithoutMerkleProofs.sampling_data.merkle_proofs = [] ∧
      verify_proof proofWithoutMerkleProofs = some true := by
  refine ⟨by decide, by decide, ?_⟩
  decide

/-- C8 -- the verifier is not total on adversarial proof shapes: with one
sample point and one Merkle proof but an empty sample-value vector,
`verify_merkle_proofs` reads `sample_values[0]` out of bounds and panics
(modelled by `none`) instead of returning false. -/
theorem verify_panics_on_short_sample_values :
    proofShortSampleValues.sampling_data.sample_points.length = 1 ∧
      proofShortSampleValues.sampling_data.merkle_proofs.length = 1 ∧
      proofShortSampleValues.sampling_data.sample_values = [] ∧
      verify_proof proofShortSampleValues = none := by
  refine ⟨by decide, by decide, by decide, ?_⟩
  decide

/-! ## Merkle tree reconstruction -/

theorem mask_zero_pow2 : ∀ n : ℕ, 0 < n → n &&& (n - 1) = 0 → ∃ k, n = 2 ^ k := by
  intro n
  induction n using Nat.strong_induction_on with
  | _ n ih =>
    intro hpos hmask
    rcases Nat.even_or_odd n with he | ho
    · obtain ⟨m, hm⟩ := he
      have hm2 : n = 2 * m := by omega
      have hmpos : 0 < m := by omega
      have hbit : n = Nat.bit false m := by simp [Nat.bit_false]; omega
      have hbit2 : n - 1 = Nat.bit true (m - 1) := by simp [Nat.bit_true]; omega
      have hmask2 : Nat.bit false m &&& Nat.bit true (m - 1) = 0 := by
        rw [← hbit, ← hbit2]; exact hmask
      rw [Nat.land_bit] at hmask2
      have hinner : m &&& (m - 1) = 0 := by
        simpa [Nat.bit_false] using hmask2
      obtain ⟨k, hk⟩ := ih m (by omega) hmpos hinner
      exact ⟨k + 1, by rw [hm2, hk, pow_succ]; ring⟩
    · obtain ⟨m, hm⟩ := ho
      by_cases h1 : n = 1
      · exact ⟨0, by simp [h1]⟩
      · exfalso
        have hmpos : 0 < m := by omega
        have hbit : n = Nat.bit true m := by simp [Nat.bit_true]; omega
        have hbit2 : n - 1 = Nat.bit false m := by simp [Nat.bit_false]; omega
        have hmask2 : Nat.bit true m &&& Nat.bit false m = 0 := by
          rw [← hbit, ← hbit2]; exact hmask
        rw [Nat.land_bit] at hmask2
        have hself : m &&& m = m :=
          Nat.eq_of_testBit_eq (fun i => by
            rw [Nat.testBit_land]; exact Bool.and_self _)
        rw [hself] at hmask2
        simp [Nat.bit_false] at hmask2
        omega

theorem nextPow2Aux_spec :
    ∀ (fuel power n : Nat), (∃ k, power = 2 ^ k) → n ≤ power * 2 ^ fuel →
      (∃ j, nextPow2Aux n fuel power = 2 ^ j) ∧ n ≤ nextPow2Aux n fuel power := by
  intro fuel
  induction fuel with
  | zero =>
    intro power n hpow hle
    simp only [nextPow2Aux]
    exact ⟨hpow, by simpa using hle⟩
  | succ f ih =>
    intro power n hpow hle
    rw [nextPow2Aux]
    by_cases h : n ≤ power
    · rw [if_pos h]
      exact ⟨hpow, h⟩
    · rw [if_neg h]
      obtain ⟨k, hk⟩ := hpow
      refine ih (power * 2) n ⟨k + 1, by rw [hk, pow_succ]⟩ ?_
      calc n ≤ power * 2 ^ (f + 1) := hle
        _ = power * 2 * 2 ^ f := by rw [pow_succ]; ring

theorem next_power_of_two_spec (n : Nat) :
    (∃ k, next_power_of_two n = 2 ^ k) ∧ n ≤ next_power_of_two n := by
  rw [next_power_of_two]
  by_cases h0 : n = 0
  · simp only [h0, if_pos]
    exact ⟨⟨0, by norm_num⟩, by omega⟩
  · rw [if_neg h0]
    by_cases hmask : n &&& (n - 1) = 0
    · rw [if_pos hmask]
      exact ⟨mask_zero_pow2 n (by omega) hmask, le_refl n⟩
    · rw [if_neg hmask]
      refine nextPow2Aux_spec n 1 n ⟨0, rfl⟩ ?_
      have := Nat.lt_two_pow n
      omega

theorem hash_two_inputs_comm (a b : Int) :
    hash_two_inputs a b = hash_two_inputs b a := by
  have key : ∀ x y : Int,
      (if x ≤ y then x else y) + (if x ≤ y then y else x) =
        (if y ≤ x then y else x) + (if y ≤ x then x else y) := by
    intro x y
    split_ifs <;> omega
  show Stark.hash (wrap128
      ((if Stark.hash a ≤ Stark.hash b then Stark.hash a else Stark.hash b) +
        (if Stark.hash a ≤ Stark.hash b then Stark.hash b else Stark.hash a))) =
    Stark.hash (wrap128
      ((if Stark.hash b ≤ Stark.hash a then Stark.hash b else Stark.hash a) +
        (if Stark.hash b ≤ Stark.hash a then Stark.hash a else Stark.hash b)))
  rw [key]

theorem combineLevel_getD :
    ∀ (l : List Int) (i : Nat), l.length % 2 = 0 → i < l.length →
      (combineLevel l).getD (i / 2) 0 =
        hash_two_inputs (l.getD i 0)
          (l.getD (if i % 2 = 0 then i + 1 else i - 1) 0) := by
  intro l
  match l with
  | [] => intro i _ hi; simp at hi
  | [a] => intro i he _; simp at he
  | a :: b :: rest =>
    intro i he hi
    match i with
    | 0 => rfl
    | 1 =>
      show (combineLevel (a :: b :: rest)).getD 0 0 = hash_two_inputs b a
      rw [hash_two_inputs_comm b a]
      rfl
    | Nat.succ (Nat.succ j) =>
      have hrec := combineLevel_getD rest j
        (by simp only [List.length_cons] at he; omega)
        (by simp only [List.length_cons] at hi; omega)
      have hdiv : (j + 2) / 2 = j / 2 + 1 := by omega
      have hl : (combineLevel (a :: b :: rest)).getD ((j + 2) / 2) 0 =
          (combineLevel rest).getD (j / 2) 0 := by
        rw [hdiv]
        rfl
      have h1 : (a :: b :: rest).getD (j + 2) 0 = rest.getD j 0 := rfl
      have h2 : (a :: b :: rest).getD
            (if (j + 2) % 2 = 0 then (j + 2) + 1 else (j + 2) - 1) 0 =
          rest.getD (if j % 2 = 0 then j + 1 else j - 1) 0 := by
        by_cases hj : j % 2 = 0
        · have hj2 : (j + 2) % 2 = 0 := by omega
          simp only [hj, hj2, if_true]
          rfl
        · have hj2 : ¬((j + 2) % 2 = 0) := by omega
          simp only [hj, hj2, if_false]
          have heq : j + 2 - 1 = (j - 1) + 2 := by omega
          rw [heq]
          rfl
      calc (combineLevel (a :: b :: rest)).getD ((j + 2) / 2) 0
          = (combineLevel rest).getD (j / 2) 0 := hl
        _ = hash_two_inputs (rest.getD j 0)
              (rest.getD (if j % 2 = 0 then j + 1 else j - 1) 0) := hrec
        _ = hash_two_inputs ((a :: b :: rest).getD (j + 2) 0)
              ((a :: b :: rest).getD
                (if (j + 2) % 2 = 0 then (j + 2) + 1 else (j + 2) - 1) 0) := by
            rw [h1, h2]

theorem buildLevelsAux_ne_nil (fuel : Nat) (l : List Int) :
    buildLevelsAux fuel l ≠ [] := by
  cases fuel with
  | zero => simp [buildLevelsAux]
  | succ f =>
    rw [buildLevelsAux]
    by_cases h : l.length ≤ 1 <;> simp [h]

theorem buildLevelsAux_head (fuel : Nat) (l : List Int) :
    (buildLevelsAux fuel l).headD [] = l := by
  cases fuel with
  | zero => simp [buildLevelsAux]
  | succ f =>
    rw [buildLevelsAux]
    by_cases h : l.length ≤ 1 <;> simp [h]

theorem proofWalk_ne_nil (levels : List (List Int)) (idx : Nat)
    (hne : levels ≠ []) : MerkleTree.proofWalk levels idx ≠ [] := by
  match levels with
  | [] => exact absurd rfl hne
  | level :: rest =>
    rw [MerkleTree.proofWalk]
    by_cases h : level.length = 1 <;> simp [h]

theorem cons_getLast?_of_ne_nil {α : Type} (x : α) (t : List α)
    (hne : t ≠ []) : (x :: t).getLast? = t.getLast? := by
  match t with
  | [] => exact absurd rfl hne
  | b :: bs => rfl

/-- Root reconstruction for built Merkle levels: when the leaf layer has
power-of-two length 2^k and the fuel covers the k combining rounds, the
level list ends in a single root hash, and for every index i the proof
walk (all elements except the last, folded from the leaf hash with the
commutative combiner) reproduces exactly that root, which is also the
walk's last element. -/
theorem buildLevelsAux_spec :
    ∀ (k fuel : Nat) (l : List Int), l.length = 2 ^ k → k ≤ fuel →
      ∀ i, i < l.length →
      ∃ r, (((buildLevelsAux fuel l).getLast?).getD []).getLast? = some r ∧
        ((MerkleTree.proofWalk (buildLevelsAux fuel l) i).dropLast).foldl
            hash_two_inputs (l.getD i 0) = r ∧
        (MerkleTree.proofWalk (buildLevelsAux fuel l) i).getLast? = some r := by
  intro k
  induction k with
  | zero =>
    intro fuel l hlen hfuel i hi
    obtain ⟨a, ha⟩ := List.length_eq_one.mp (by simpa using hlen)
    subst ha
    have hi0 : i = 0 := by simpa using hi
    subst hi0
    have hb : buildLevelsAux fuel [a] = [[a]] := by
      cases fuel with
      | zero => rfl
      | succ f => simp [buildLevelsAux]
    rw [hb]
    exact ⟨a, rfl, rfl, rfl⟩
  | succ k ih =>
    intro fuel l hlen hfuel i hi
    match fuel with
    | 0 => omega
    | Nat.succ f =>
      have hlen2 : ¬(l.length ≤ 1) := by
        rw [hlen]
        have : 2 ≤ 2 ^ (k + 1) := by
          calc 2 = 2 ^ 1 := rfl
            _ ≤ 2 ^ (k + 1) := Nat.pow_le_pow_right (by norm_num) (by omega)
        omega
      have hb : buildLevelsAux (f + 1) l = l :: buildLevelsAux f (combineLevel l) := by
        rw [buildLevelsAux, if_neg hlen2]
      have hclen : (combineLevel l).length = 2 ^ k := by
        rw [combineLevel_length, hlen, pow_succ]
        omega
      have hhalf : i / 2 < (combineLevel l).length := by
        rw [hclen]
        rw [hlen, pow_succ] at hi
        omega
      obtain ⟨r, hroot, hfold, hlast⟩ :=
        ih f (combineLevel l) hclen (by omega) (i / 2) hhalf
      have hlne : buildLevelsAux f (combineLevel l) ≠ [] :=
        buildLevelsAux_ne_nil f (combineLevel l)
      refine ⟨r, ?_, ?_, ?_⟩
      · rw [hb, cons_getLast?_of_ne_nil _ _ hlne]
        exact hroot
      · rw [hb]
        rw [MerkleTree.proofWalk]
        have hne1 : ¬(l.length = 1) := by omega
        rw [if_neg hne1]
        have hwne : MerkleTree.proofWalk (buildLevelsAux f (combineLevel l)) (i / 2) ≠ [] :=
          proofWalk_ne_nil _ _ hlne
        have hdrop :
            ((l.getD (if i % 2 = 0 then i + 1 else i - 1) 0 ::
                MerkleTree.proofWalk (buildLevelsAux f (combineLevel l)) (i / 2)).dropLast)
              = l.getD (if i % 2 = 0 then i + 1 else i - 1) 0 ::
                (MerkleTree.proofWalk (buildLevelsAux f (combineLevel l)) (i / 2)).dropLast := by
          match hw : MerkleTree.proofWalk (buildLevelsAux f (combineLevel l)) (i / 2) with
          | [] => exact absurd hw hwne
          | w :: ws => rfl
        rw [hdrop]
        rw [List.foldl_cons]
        have heven : l.length % 2 = 0 := by
          rw [hlen, pow_succ]
          omega
        rw [← combineLevel_getD l i heven hi]
        have hleaf : (buildLevelsAux f (combineLevel l)).headD [] = combineLevel l :=
          buildLevelsAux_head f (combineLevel l)
        exact hfold
      · rw [hb]
        rw [MerkleTree.proofWalk]
        have hne1 : ¬(l.length = 1) := by omega
        rw [if_neg hne1]
        have hwne : MerkleTree.proofWalk (buildLevelsAux f (combineLevel l)) (i / 2) ≠ [] :=
          proofWalk_ne_nil _ _ hlne
        rw [cons_getLast?_of_ne_nil _ _ hwne]
        exact hlast

theorem buildLevels_cons (l : List Int) :
    ∃ rest, buildLevels l = l :: rest := by
  unfold buildLevels
  cases h : buildLevelsAux l.length l with
  | nil => exact absurd h (buildLevelsAux_ne_nil _ _)
  | cons x t =>
    have hx := buildLevelsAux_head l.length l
    rw [h] at hx
    simp only [List.headD_cons] at hx
    exact ⟨t, by rw [hx]⟩

/-- Root reconstruction for `buildLevels` over a padded power-of-two leaf
layer, packaged for both tree constructors. -/
theorem buildLevels_reconstruct (l : List Int) (k : Nat)
    (hlen : l.length = 2 ^ k) (i : Nat) (hi : i < l.length) :
    ∃ r, (((buildLevels l).getLast?).getD []).getLast? = some r ∧
      ((MerkleTree.proofWalk (buildLevels l) i).dropLast).foldl
          hash_two_inputs (l.getD i 0) = r ∧
      (MerkleTree.proofWalk (buildLevels l) i).getLast? = some r := by
  unfold buildLevels
  refine buildLevelsAux_spec k l.length l hlen ?_ i hi
  rw [hlen]
  have := Nat.lt_two_pow k
  omega

/-- C4 -- for every non-empty leaf list and every index i of the padded
leaf layer, `get_merkle_proof` returns a proof whose last element is the
root, and folding the level-0 leaf hash at i through the proof's sibling
hashes (all elements except the last) with the commutative combiner
`hash_two_inputs` reproduces the committed root. -/
theorem merkle_proof_reconstructs_root (elements : List FiniteFieldElement)
    (hne : elements ≠ []) (i : Nat)
    (hi : i < (MerkleTree.build elements).leaf_count) :
    ∃ (prf : List Int) (root : Int),
      (MerkleTree.build elements).get_merkle_proof i = some prf ∧
      (MerkleTree.build elements).root = some root ∧
      prf.dropLast.foldl hash_two_inputs
        (((MerkleTree.build elements).nodes.headD []).getD i 0) = root ∧
      prf.getLast? = some root := by
  have hhashlen : (elements.map (fun e => e.hash)).length = elements.length :=
    List.length_map _ _
  set L := (elements.map (fun e => e.hash)) ++
    List.replicate
      (next_power_of_two (elements.map (fun e => e.hash)).length -
        (elements.map (fun e => e.hash)).length) 0 with hL
  have hnodes : (MerkleTree.build elements).nodes = buildLevels L := by
    rw [MerkleTree.build, if_neg hne]
  have hroot : (MerkleTree.build elements).root =
      (((buildLevels L).getLast?).getD []).getLast? := by
    rw [MerkleTree.build, if_neg hne]
  obtain ⟨k, hk⟩ := (next_power_of_two_spec elements.length).1
  have hge := (next_power_of_two_spec elements.length).2
  have hlenL : L.length = 2 ^ k := by
    rw [hL]
    simp only [List.length_append, List.length_replicate, hhashlen]
    omega
  obtain ⟨rest, hrest⟩ := buildLevels_cons L
  have hleaf : (MerkleTree.build elements).leaf_count = L.length := by
    rw [MerkleTree.leaf_count, hnodes, hrest]
  have hiL : i < L.length := by rw [← hleaf]; exact hi
  obtain ⟨r, hr1, hr2, hr3⟩ := buildLevels_reconstruct L k hlenL i hiL
  have hhead : (MerkleTree.build elements).nodes.headD [] = L := by
    rw [hnodes, hrest]
    rfl
  refine ⟨MerkleTree.proofWalk (buildLevels L) i, r, ?_, ?_, ?_, ?_⟩
  · rw [MerkleTree.get_merkle_proof, hnodes, hrest]
    simp only [List.headD_cons]
    rw [if_neg (by omega)]
  · rw [hroot, hr1]
  · rw [hhead]
    exact hr2
  · exact hr3

/-- Witness for C4 on the three leaves 1, 2, 3 (padded to four) at index
2. -/
theorem merkle_proof_reconstructs_root_witness :
    ([FiniteFieldElement.new 1, FiniteFieldElement.new 2,
        FiniteFieldElement.new 3] ≠ ([] : List FiniteFieldElement)) ∧
      (2 < (MerkleTree.build
          [FiniteFieldElement.new 1, FiniteFieldElement.new 2,
            FiniteFieldElement.new 3]).leaf_count) ∧
      ∃ (prf : List Int) (root : Int),
        (MerkleTree.build
            [FiniteFieldElement.new 1, FiniteFieldElement.new 2,
              FiniteFieldElement.new 3]).get_merkle_proof 2 = some prf ∧
        (MerkleTree.build
            [FiniteFieldElement.new 1, FiniteFieldElement.new 2,
              FiniteFieldElement.new 3]).root = some root ∧
        prf.dropLast.foldl hash_two_inputs
          (((MerkleTree.build
              [FiniteFieldElement.new 1, FiniteFieldElement.new 2,
                FiniteFieldElement.new 3]).nodes.headD []).getD 2 0) = root ∧
        prf.getLast? = some root :=
  ⟨by decide, by decide,
    merkle_proof_reconstructs_root
      [FiniteFieldElement.new 1, FiniteFieldElement.new 2,
        FiniteFieldElement.new 3] (by decide) 2 (by decide)⟩

/-! ## Polynomial bridge lemmas -/

theorem subtract_cast (a b : FiniteFieldElement) (p : ℕ)
    (hf : a.field.prime = (p : Int)) :
    (((a.subtract b).value : Int) : ZMod p) =
      (a.value : ZMod p) - (b.value : ZMod p) := by
  show ((((a.value + a.field.prime - b.value).tmod a.field.prime).tmod
      a.field.prime : Int) : ZMod p) = _
  rw [hf, tmod_intCast, tmod_intCast]
  push_cast
  rw [ZMod.natCast_self]
  ring

theorem add_cast (a b : FiniteFieldElement) (p : ℕ)
    (hf : a.field.prime = (p : Int)) :
    (((a.add b).value : Int) : ZMod p) =
      (a.value : ZMod p) + (b.value : ZMod p) := by
  show ((((a.value + b.value).tmod a.field.prime).tmod
      a.field.prime : Int) : ZMod p) = _
  rw [hf, tmod_intCast, tmod_intCast]
  push_cast
  ring

theorem new_cast (v : Int) (p : ℕ)
    (hp : FiniteFieldElement.DEFAULT_FIELD_SIZE = (p : Int)) :
    (((FiniteFieldElement.new v).value : Int) : ZMod p) = (v : ZMod p) := by
  show (((v.tmod FiniteFieldElement.DEFAULT_FIELD.prime) : Int) : ZMod p) = _
  show (((v.tmod FiniteFieldElement.DEFAULT_FIELD_SIZE) : Int) : ZMod p) = _
  rw [hp, tmod_intCast]

theorem toPoly_nil (p : ℕ) : toPoly p [] = 0 := rfl

theorem toPoly_cons (p : ℕ) (c : FiniteFieldElement)
    (t : List FiniteFieldElement) :
    toPoly p (c :: t) =
      Polynomial.C ((c.value : ZMod p)) + Polynomial.X * toPoly p t := rfl

theorem toPoly_coeff (p : ℕ) :
    ∀ (l : List FiniteFieldElement) (n : Nat),
      (toPoly p l).coeff n =
        ((l.getD n FiniteFieldElement.ZERO).value : ZMod p) := by
  intro l
  induction l with
  | nil =>
    intro n
    simp [toPoly_nil, FiniteFieldElement.ZERO]
  | cons c t ih =>
    intro n
    rw [toPoly_cons]
    match n with
    | 0 =>
      simp [Polynomial.coeff_add, Polynomial.coeff_C_zero, Polynomial.coeff_X_mul]
    | Nat.succ m =>
      rw [Polynomial.coeff_add, Polynomial.coeff_C]
      have hx : (Polynomial.X * toPoly p t).coeff (m + 1) = (toPoly p t).coeff m :=
        Polynomial.coeff_X_mul _ _
      rw [hx, ih m]
      simp

theorem toPoly_ext (p : ℕ) (l1 l2 : List FiniteFieldElement)
    (h : ∀ n, ((l1.getD n FiniteFieldElement.ZERO).value : ZMod p) =
      ((l2.getD n FiniteFieldElement.ZERO).value : ZMod p)) :
    toPoly p l1 = toPoly p l2 := by
  apply Polynomial.ext
  intro n
  rw [toPoly_coeff, toPoly_coeff]
  exact h n

theorem lastNonzeroLen_le_length :
    ∀ l : List FiniteFieldElement, Polynomial.lastNonzeroLen l ≤ l.length := by
  intro l
  induction l with
  | nil => simp [Polynomial.lastNonzeroLen]
  | cons c t ih =>
    simp only [Polynomial.lastNonzeroLen, List.length_cons]
    by_cases h : Polynomial.lastNonzeroLen t = 0
    · rw [if_pos h]
      by_cases hz : c.is_zero
      · rw [if_pos hz]; omega
      · rw [if_neg hz]; omega
    · rw [if_neg h]; omega

theorem getD_value_zero_of_ge_lastNonzeroLen :
    ∀ (l : List FiniteFieldElement) (m : Nat),
      Polynomial.lastNonzeroLen l ≤ m →
      (l.getD m FiniteFieldElement.ZERO).value = 0 := by
  intro l
  induction l with
  | nil =>
    intro m _
    simp [FiniteFieldElement.ZERO]
  | cons c t ih =>
    intro m hm
    simp only [Polynomial.lastNonzeroLen] at hm
    by_cases hr : Polynomial.lastNonzeroLen t = 0
    · rw [if_pos hr] at hm
      match m with
      | 0 =>
        by_cases hz : c.is_zero
        · simpa [FiniteFieldElement.is_zero] using hz
        · rw [if_neg hz] at hm
          omega
      | Nat.succ m0 =>
        show (t.getD m0 FiniteFieldElement.ZERO).value = 0
        exact ih m0 (by omega)
    · rw [if_neg hr] at hm
      match m with
      | 0 => omega
      | Nat.succ m0 =>
        show (t.getD m0 FiniteFieldElement.ZERO).value = 0
        exact ih m0 (by omega)

theorem lastNonzeroLen_le_of_zero_beyond :
    ∀ (l : List FiniteFieldElement) (k : Nat),
      (∀ m, k ≤ m → m < l.length →
        (l.getD m FiniteFieldElement.ZERO).value = 0) →
      Polynomial.lastNonzeroLen l ≤ k := by
  intro l
  induction l with
  | nil => intro k _; simp [Polynomial.lastNonzeroLen]
  | cons c t ih =>
    intro k hk
    simp only [Polynomial.lastNonzeroLen]
    match k with
    | 0 =>
      have hc : c.is_zero := by
        have := hk 0 (by omega) (by simp)
        simpa [FiniteFieldElement.is_zero] using this
      have ht : Polynomial.lastNonzeroLen t = 0 := by
        have hle : Polynomial.lastNonzeroLen t ≤ 0 := by
          refine ih 0 ?_
          intro m _ hm
          exact hk (m + 1) (by omega) (by simpa using hm)
        omega
      simp [ht, hc]
    | Nat.succ k0 =>
      have ht : Polynomial.lastNonzeroLen t ≤ k0 := by
        refine ih k0 ?_
        intro m hm hlt
        exact hk (m + 1) (by omega) (by simpa using hlt)
      by_cases hr : Polynomial.lastNonzeroLen t = 0
      · rw [if_pos hr]
        by_cases hz : c.is_zero
        · rw [if_pos hz]; omega
        · rw [if_neg hz]; omega
      · rw [if_neg hr]
        omega

theorem lastNonzeroLen_last_nonzero :
    ∀ l : List FiniteFieldElement, 0 < Polynomial.lastNonzeroLen l →
      ¬(l.getD (Polynomial.lastNonzeroLen l - 1)
          FiniteFieldElement.ZERO).is_zero := by
  intro l
  induction l with
  | nil => intro h; simp [Polynomial.lastNonzeroLen] at h
  | cons c t ih =>
    intro h
    simp only [Polynomial.lastNonzeroLen] at h ⊢
    by_cases hr : Polynomial.lastNonzeroLen t = 0
    · rw [if_pos hr] at h ⊢
      by_cases hz : c.is_zero
      · rw [if_pos hz] at h
        omega
      · simp [hz]
    · rw [if_neg hr] at h ⊢
      have := ih (by omega)
      have harith : Polynomial.lastNonzeroLen t + 1 - 1 =
          (Polynomial.lastNonzeroLen t - 1) + 1 := by omega
      rw [harith]
      simpa using this

theorem toPoly_take_of_zero_beyond (p : ℕ) (l : List FiniteFieldElement)
    (k : Nat)
    (hz : ∀ m, k ≤ m → m < l.length →
      (l.getD m FiniteFieldElement.ZERO).value = 0) :
    toPoly p (l.take k) = toPoly p l := by
  apply toPoly_ext
  intro n
  by_cases hn : n < k
  · rw [List.getD_eq_getElem?_getD, List.getD_eq_getElem?_getD,
      List.getElem?_take_of_lt hn]
  · by_cases hlen : n < l.length
    · have h1 : ((l.take k).getD n FiniteFieldElement.ZERO).value = 0 := by
        rw [List.getD_eq_getElem?_getD]
        rw [List.getElem?_take_eq_none (by omega)]
        simp [FiniteFieldElement.ZERO]
      have h2 : (l.getD n FiniteFieldElement.ZERO).value = 0 :=
        hz n (by omega) hlen
      rw [h1, h2]
    · have h1 : ((l.take k).getD n FiniteFieldElement.ZERO).value = 0 := by
        rw [List.getD_eq_getElem?_getD]
        rw [List.getElem?_eq_none (by simp; omega)]
        simp [FiniteFieldElement.ZERO]
      have h2 : (l.getD n FiniteFieldElement.ZERO).value = 0 := by
        rw [List.getD_eq_getElem?_getD, List.getElem?_eq_none (by omega)]
        simp [FiniteFieldElement.ZERO]
      rw [h1, h2]

theorem getD_set_self (l : List FiniteFieldElement) (m : Nat)
    (v : FiniteFieldElement) (hm : m < l.length) :
    (l.set m v).getD m FiniteFieldElement.ZERO = v := by
  rw [List.getD_eq_getElem?_getD, List.getElem?_set_self hm]
  rfl

theorem getD_set_ne (l : List FiniteFieldElement) (m idx : Nat)
    (v : FiniteFieldElement) (hne : m ≠ idx) :
    (l.set m v).getD idx FiniteFieldElement.ZERO =
      l.getD idx FiniteFieldElement.ZERO := by
  rw [List.getD_eq_getElem?_getD, List.getElem?_set_ne hne,
    ← List.getD_eq_getElem?_getD]

theorem toPoly_set (p : ℕ) (l : List FiniteFieldElement) (m : Nat)
    (v : FiniteFieldElement) (hm : m < l.length) :
    toPoly p (l.set m v) =
      toPoly p l +
        Polynomial.C
            ((v.value : ZMod p) - ((l.getD m FiniteFieldElement.ZERO).value : ZMod p)) *
          Polynomial.X ^ m := by
  apply Polynomial.ext
  intro n
  rw [Polynomial.coeff_add, Polynomial.coeff_C_mul, Polynomial.coeff_X_pow,
    toPoly_coeff, toPoly_coeff]
  by_cases hnm : n = m
  · subst hnm
    rw [getD_set_self l n v hm, if_pos rfl]
    ring
  · rw [getD_set_ne l m n v (fun h => hnm h.symm)]
    simp [hnm]

theorem toPoly_take_succ (p : ℕ) (l : List FiniteFieldElement) (m : Nat)
    (hm : m < l.length) :
    toPoly p (l.take (m + 1)) =
      toPoly p (l.take m) +
        Polynomial.C (((l.getD m FiniteFieldElement.ZERO).value : ZMod p)) *
          Polynomial.X ^ m := by
  apply Polynomial.ext
  intro n
  rw [Polynomial.coeff_add, Polynomial.coeff_C_mul, Polynomial.coeff_X_pow,
    toPoly_coeff, toPoly_coeff]
  by_cases hnm : n = m
  · subst hnm
    have h1 : (l.take (n + 1)).getD n FiniteFieldElement.ZERO =
        l.getD n FiniteFieldElement.ZERO := by
      rw [List.getD_eq_getElem?_getD, List.getElem?_take_of_lt (by omega),
        ← List.getD_eq_getElem?_getD]
    have h2 : (l.take n).getD n FiniteFieldElement.ZERO =
        FiniteFieldElement.ZERO := by
      rw [List.getD_eq_getElem?_getD, List.getElem?_take_eq_none (by omega)]
      rfl
    rw [if_pos rfl, h1, h2]
    simp [FiniteFieldElement.ZERO]
  · rw [if_neg hnm]
    by_cases hlt : n < m
    · have h1 : (l.take (m + 1)).getD n FiniteFieldElement.ZERO =
          l.getD n FiniteFieldElement.ZERO := by
        rw [List.getD_eq_getElem?_getD, List.getElem?_take_of_lt (by omega),
          ← List.getD_eq_getElem?_getD]
      have h2 : (l.take m).getD n FiniteFieldElement.ZERO =
          l.getD n FiniteFieldElement.ZERO := by
        rw [List.getD_eq_getElem?_getD, List.getElem?_take_of_lt hlt,
          ← List.getD_eq_getElem?_getD]
      rw [h1, h2]
      simp
    · have h1 : (l.take (m + 1)).getD n FiniteFieldElement.ZERO =
          FiniteFieldElement.ZERO := by
        rw [List.getD_eq_getElem?_getD, List.getElem?_take_eq_none (by omega)]
        rfl
      have h2 : (l.take m).getD n FiniteFieldElement.ZERO =
          FiniteFieldElement.ZERO := by
        rw [List.getD_eq_getElem?_getD, List.getElem?_take_eq_none (by omega)]
        rfl
      rw [h1, h2]
      simp

/-- Behaviour of the inner subtraction loop of `Polynomial::div` after m
rounds: the length is kept, entries stay canonical, positions outside
[i, i + m) are untouched, position i + j holds the old value minus
divisor[j] * quot, and the interpreted polynomial decreases by
quot * X^i times the polynomial of the first m divisor coefficients. -/
theorem divInnerFold_spec (p : ℕ) (hp : 0 < (p : Int))
    (bl : List FiniteFieldElement) (quot : FiniteFieldElement) (i : Nat)
    (hq : 0 ≤ quot.value) (hbl : canonList p bl) :
    ∀ (m : Nat) (d : List FiniteFieldElement), canonList p d →
      i + m ≤ d.length → m ≤ bl.length →
      (Polynomial.divInnerFold bl quot i m d).length = d.length ∧
      canonList p (Polynomial.divInnerFold bl quot i m d) ∧
      (∀ idx, (idx < i ∨ i + m ≤ idx) →
        (Polynomial.divInnerFold bl quot i m d).getD idx FiniteFieldElement.ZERO =
          d.getD idx FiniteFieldElement.ZERO) ∧
      (∀ j2, j2 < m →
        (Polynomial.divInnerFold bl quot i m d).getD (i + j2) FiniteFieldElement.ZERO =
          (d.getD (i + j2) FiniteFieldElement.ZERO).subtract
            ((bl.getD j2 FiniteFieldElement.ZERO).multiply quot)) ∧
      toPoly p (Polynomial.divInnerFold bl quot i m d) =
        toPoly p d -
          Polynomial.C ((quot.value : ZMod p)) * Polynomial.X ^ i *
            toPoly p (bl.take m) := by
  intro m
  induction m with
  | zero =>
    intro d hd _ _
    refine ⟨rfl, hd, fun idx _ => rfl, fun j2 h => absurd h (by omega), ?_⟩
    simp [Polynomial.divInnerFold, toPoly_nil]
  | succ m ih =>
    intro d hd hlen hmb
    obtain ⟨ih1, ih2, ih3, ih4, ih5⟩ := ih d hd (by omega) (by omega)
    have hstep : Polynomial.divInnerFold bl quot i (m + 1) d =
        (if i + m < (Polynomial.divInnerFold bl quot i m d).length then
          (Polynomial.divInnerFold bl quot i m d).set (i + m)
            (((Polynomial.divInnerFold bl quot i m d).getD (i + m)
                FiniteFieldElement.ZERO).subtract
              ((bl.getD m FiniteFieldElement.ZERO).multiply quot))
        else Polynomial.divInnerFold bl quot i m d) := by
      rw [Polynomial.divInnerFold, List.range_succ, List.foldl_append]
      rfl
    have hin : i + m < (Polynomial.divInnerFold bl quot i m d).length := by
      rw [ih1]; omega
    rw [hstep, if_pos hin]
    have hdmi := ih2 (i + m) hin
    have hblm := hbl m (by omega)
    have hmul : 0 ≤ ((bl.getD m FiniteFieldElement.ZERO).multiply quot).value ∧
        ((bl.getD m FiniteFieldElement.ZERO).multiply quot).value < (p : Int) := by
      have := multiply_range (bl.getD m FiniteFieldElement.ZERO) quot
        (by rw [hblm.1]; exact hp) hblm.2.1 hq
      rw [hblm.1] at this
      exact this
    have hsub := subtract_range
      ((Polynomial.divInnerFold bl quot i m d).getD (i + m)
        FiniteFieldElement.ZERO)
      ((bl.getD m FiniteFieldElement.ZERO).multiply quot)
      (by rw [hdmi.1]; exact hp)
      (by
        rw [hdmi.1]
        have h1 := hdmi.2.1
        have h2 := hmul.2
        omega)
    refine ⟨?_, ?_, ?_, ?_, ?_⟩
    · rw [List.length_set, ih1]
    · intro idx hidx
      rw [List.length_set, ih1] at hidx
      by_cases hix : idx = i + m
      · subst hix
        rw [getD_set_self _ _ _ hin]
        exact ⟨hdmi.1, hsub.1, lt_of_lt_of_eq hsub.2 hdmi.1⟩
      · rw [getD_set_ne _ _ _ _ (fun h => hix h.symm)]
        exact ih2 idx (by rw [ih1]; exact hidx)
    · intro idx hout
      rw [getD_set_ne _ _ _ _ (by omega)]
      exact ih3 idx (by omega)
    · intro j2 hj2
      by_cases hj : j2 = m
      · subst hj
        rw [getD_set_self _ _ _ hin, ih3 (i + j2) (Or.inr (by omega))]
      · rw [getD_set_ne _ _ _ _ (by omega)]
        exact ih4 j2 (by omega)
    · rw [toPoly_set p _ _ _ hin, ih5, toPoly_take_succ p bl m (by omega)]
      have harg :
          (((((Polynomial.divInnerFold bl quot i m d).getD (i + m)
              FiniteFieldElement.ZERO).subtract
              ((bl.getD m FiniteFieldElement.ZERO).multiply quot)).value : Int) :
                ZMod p) -
            ((((Polynomial.divInnerFold bl quot i m d).getD (i + m)
              FiniteFieldElement.ZERO).value : Int) : ZMod p) =
          -(((bl.getD m FiniteFieldElement.ZERO).value : ZMod p) *
            ((quot.value : Int) : ZMod p)) := by
        rw [subtract_cast _ _ p hdmi.1, multiply_cast _ _ p hblm.1]
        ring
      rw [harg]
      simp only [map_neg, map_mul, pow_add]
      ring

/-- One outer division step preserves the long-division invariants:
canonical entries, lengths, the zero region of the working dividend grows
down to position ddeg + i, quotient positions below i stay unset, and
quotient * divisor + dividend is unchanged as a polynomial over ZMod p. -/
theorem divStep_inv (p : ℕ) (hp : 0 < (p : Int))
    (bl : List FiniteFieldElement) (ddeg : Nat)
    (leadInv : FiniteFieldElement)
    (hbl : canonList p bl) (hdd : ddeg < bl.length)
    (hblz : ∀ m, ddeg < m → m < bl.length →
      (bl.getD m FiniteFieldElement.ZERO).value = 0)
    (hlinv : 0 ≤ leadInv.value)
    (hinv : ((bl.getD ddeg FiniteFieldElement.ZERO).value : ZMod p) *
      ((leadInv.value : Int) : ZMod p) = 1)
    (i : Nat) (d q : List FiniteFieldElement)
    (hdc : canonList p d)
    (hzero : ∀ m, ddeg + i + 1 ≤ m → m < d.length →
      (d.getD m FiniteFieldElement.ZERO).value = 0)
    (hqz : ∀ m2, m2 < i + 1 →
      (q.getD m2 FiniteFieldElement.ZERO).value = 0)
    (hqlen : i < q.length) :
    (Polynomial.divStep bl ddeg leadInv i (d, q)).1.length = d.length ∧
      (Polynomial.divStep bl ddeg leadInv i (d, q)).2.length = q.length ∧
      canonList p (Polynomial.divStep bl ddeg leadInv i (d, q)).1 ∧
      (∀ m, ddeg + i ≤ m → m < d.length →
        ((Polynomial.divStep bl ddeg leadInv i (d, q)).1.getD m
          FiniteFieldElement.ZERO).value = 0) ∧
      (∀ m2, m2 < i →
        ((Polynomial.divStep bl ddeg leadInv i (d, q)).2.getD m2
          FiniteFieldElement.ZERO).value = 0) ∧
      toPoly p (Polynomial.divStep bl ddeg leadInv i (d, q)).2 *
          toPoly p bl +
          toPoly p (Polynomial.divStep bl ddeg leadInv i (d, q)).1 =
        toPoly p q * toPoly p bl + toPoly p d := by
  rw [Polynomial.divStep]
  by_cases hcond : ddeg + i < d.length ∧
      ¬(d.getD (ddeg + i) FiniteFieldElement.ZERO).is_zero
  · rw [if_pos hcond]
    simp only
    set quot := (d.getD (ddeg + i) FiniteFieldElement.ZERO).multiply leadInv
      with hquotdef
    have hdcd := hdc (ddeg + i) hcond.1
    have hquotr : 0 ≤ quot.value ∧ quot.value < (p : Int) := by
      have := multiply_range (d.getD (ddeg + i) FiniteFieldElement.ZERO)
        leadInv (by rw [hdcd.1]; exact hp) hdcd.2.1 hlinv
      rw [hdcd.1] at this
      exact this
    obtain ⟨hi1, hi2, hi3, hi4, hi5⟩ :=
      divInnerFold_spec p hp bl quot i hquotr.1 hbl (ddeg + 1) d hdc
        (by omega) (by omega)
    have htake : toPoly p (bl.take (ddeg + 1)) = toPoly p bl :=
      toPoly_take_of_zero_beyond p bl (ddeg + 1)
        (fun m hm hlen => hblz m (by omega) hlen)
    refine ⟨hi1, by rw [List.length_set], hi2, ?_, ?_, ?_⟩
    · intro m hm hmlen
      by_cases hcd : m = ddeg + i
      · subst hcd
        have hval := hi4 ddeg (by omega)
        have harith : i + ddeg = ddeg + i := by omega
        rw [harith] at hval
        rw [hval]
        have hcast : ((((d.getD (ddeg + i) FiniteFieldElement.ZERO).subtract
            ((bl.getD ddeg FiniteFieldElement.ZERO).multiply quot)).value : Int) :
              ZMod p) = 0 := by
          rw [subtract_cast _ _ p hdcd.1, multiply_cast _ _ p (hbl ddeg hdd).1,
            hquotdef, multiply_cast _ _ p hdcd.1]
          have : ((d.getD (ddeg + i) FiniteFieldElement.ZERO).value : ZMod p) -
              ((bl.getD ddeg FiniteFieldElement.ZERO).value : ZMod p) *
                (((d.getD (ddeg + i) FiniteFieldElement.ZERO).value : ZMod p) *
                  ((leadInv.value : Int) : ZMod p)) =
              ((d.getD (ddeg + i) FiniteFieldElement.ZERO).value : ZMod p) *
                (1 - ((bl.getD ddeg FiniteFieldElement.ZERO).value : ZMod p) *
                  ((leadInv.value : Int) : ZMod p)) := by ring
          rw [this, hinv]
          ring_nf
        have hsubr := subtract_range (d.getD (ddeg + i) FiniteFieldElement.ZERO)
          ((bl.getD ddeg FiniteFieldElement.ZERO).multiply quot)
          (by rw [hdcd.1]; exact hp)
          (by
            rw [hdcd.1]
            have hmul2 : 0 ≤ ((bl.getD ddeg FiniteFieldElement.ZERO).multiply
                quot).value ∧
                ((bl.getD ddeg FiniteFieldElement.ZERO).multiply quot).value <
                  (p : Int) := by
              have := multiply_range (bl.getD ddeg FiniteFieldElement.ZERO)
                quot (by rw [(hbl ddeg hdd).1]; exact hp) (hbl ddeg hdd).2.1
                hquotr.1
              rw [(hbl ddeg hdd).1] at this
              exact this
            have := hdcd.2.1
            have := hmul2.2
            omega)
        refine int_eq_of_cast_eq (p := p) hsubr.1
          (lt_of_lt_of_eq hsubr.2 hdcd.1) (le_refl 0) ?_ ?_
        · exact_mod_cast hp
        · rw [hcast]
          norm_num
      · have hout := hi3 m (by omega)
        rw [hout]
        exact hzero m (by omega) hmlen
    · intro m2 hm2
      rw [getD_set_ne _ _ _ _ (by omega)]
      exact hqz m2 (by omega)
    · rw [hi5]
      have hqset : toPoly p (q.set i quot) =
          toPoly p q +
            Polynomial.C (((quot.value : Int) : ZMod p) -
              ((q.getD i FiniteFieldElement.ZERO).value : ZMod p)) *
              Polynomial.X ^ i :=
        toPoly_set p q i quot hqlen
      have hqi : ((q.getD i FiniteFieldElement.ZERO).value : ZMod p) = 0 := by
        rw [hqz i (by omega)]
        norm_num
      rw [hqset, hqi, htake]
      ring_nf
  · rw [if_neg hcond]
    refine ⟨rfl, rfl, hdc, ?_, fun m2 hm2 => hqz m2 (by omega), rfl⟩
    intro m hm hmlen
    by_cases hcd : m = ddeg + i
    · subst hcd
      rcases not_and_or.mp hcond with hlen | hnz
    -- either the position is out of range (contradiction with hmlen) or
    -- the coefficient is already zero
      · omega
      · have : (d.getD (ddeg + i) FiniteFieldElement.ZERO).is_zero := not_not.mp hnz
        simpa [FiniteFieldElement.is_zero] using this
    · exact hzero m (by omega) hmlen

/-- The outer long-division loop, run from position n - 1 down to 0,
preserves the invariants and zeroes the dividend from position ddeg up. -/
theorem divLoop_inv (p : ℕ) (hp : 0 < (p : Int))
    (bl : List FiniteFieldElement) (ddeg : Nat)
    (leadInv : FiniteFieldElement)
    (hbl : canonList p bl) (hdd : ddeg < bl.length)
    (hblz : ∀ m, ddeg < m → m < bl.length →
      (bl.getD m FiniteFieldElement.ZERO).value = 0)
    (hlinv : 0 ≤ leadInv.value)
    (hinv : ((bl.getD ddeg FiniteFieldElement.ZERO).value : ZMod p) *
      ((leadInv.value : Int) : ZMod p) = 1) :
    ∀ (n : Nat) (d q : List FiniteFieldElement),
      canonList p d →
      (∀ m, ddeg + n ≤ m → m < d.length →
        (d.getD m FiniteFieldElement.ZERO).value = 0) →
      (∀ m2, m2 < n → (q.getD m2 FiniteFieldElement.ZERO).value = 0) →
      n ≤ q.length →
      (Polynomial.divLoop bl ddeg leadInv n (d, q)).1.length = d.length ∧
        canonList p (Polynomial.divLoop bl ddeg leadInv n (d, q)).1 ∧
        (∀ m, ddeg ≤ m → m < d.length →
          ((Polynomial.divLoop bl ddeg leadInv n (d, q)).1.getD m
            FiniteFieldElement.ZERO).value = 0) ∧
        toPoly p (Polynomial.divLoop bl ddeg leadInv n (d, q)).2 *
            toPoly p bl +
            toPoly p (Polynomial.divLoop bl ddeg leadInv n (d, q)).1 =
          toPoly p q * toPoly p bl + toPoly p d := by
  intro n
  induction n with
  | zero =>
    intro d q hdc hzero _ _
    exact ⟨rfl, hdc, fun m hm hl => hzero m (by omega) hl, rfl⟩
  | succ n ih =>
    intro d q hdc hzero hqz hqlen
    obtain ⟨hs1, hs2, hs3, hs4, hs5, hs6⟩ :=
      divStep_inv p hp bl ddeg leadInv hbl hdd hblz hlinv hinv n d q hdc
        (by intro m hm hl; exact hzero m (by omega) hl)
        (by intro m2 hm2; exact hqz m2 (by omega)) (by omega)
    have hstep : Polynomial.divLoop bl ddeg leadInv (n + 1) (d, q) =
        Polynomial.divLoop bl ddeg leadInv n
          (Polynomial.divStep bl ddeg leadInv n (d, q)) := rfl
    rw [hstep]
    have hpair : Polynomial.divStep bl ddeg leadInv n (d, q) =
        ((Polynomial.divStep bl ddeg leadInv n (d, q)).1,
          (Polynomial.divStep bl ddeg leadInv n (d, q)).2) := rfl
    rw [hpair]
    obtain ⟨hl1, hl2, hl3, hl4⟩ :=
      ih (Polynomial.divStep bl ddeg leadInv n (d, q)).1
        (Polynomial.divStep bl ddeg leadInv n (d, q)).2 hs3
        (by intro m hm hl; exact hs4 m (by omega) (by rw [← hs1]; exact hl))
        hs5 (by omega)
    refine ⟨by rw [hl1, hs1], hl2, ?_, by rw [hl4, hs6]⟩
    intro m hm hl
    exact hl3 m hm (by rw [hs1]; exact hl)

theorem intCast_ne_zero_of_range (p : ℕ) (v : Int) (h0 : 0 ≤ v)
    (h1 : v < (p : Int)) (hnz : v ≠ 0) : ((v : Int) : ZMod p) ≠ 0 := by
  intro hz
  have hdvd := (ZMod.intCast_zmod_eq_zero_iff_dvd v p).mp hz
  have hle := Int.le_of_dvd (by omega) hdvd
  omega

theorem cast_pow_sub_two_mul_self (p : ℕ) [Fact (Nat.Prime p)] (x : ZMod p)
    (hx : x ≠ 0) : x ^ (p - 2) * x = 1 := by
  have h2 := (Fact.out : Nat.Prime p).two_le
  calc x ^ (p - 2) * x = x ^ (p - 2 + 1) := (pow_succ x (p - 2)).symm
    _ = x ^ (p - 1) := by congr 1; omega
    _ = 1 := ZMod.pow_card_sub_one_eq_one hx

theorem toPoly_zero_of_all_zero (p : ℕ) (l : List FiniteFieldElement)
    (hz : ∀ m, m < l.length → (l.getD m FiniteFieldElement.ZERO).value = 0) :
    toPoly p l = 0 := by
  apply Polynomial.ext
  intro n
  rw [toPoly_coeff]
  by_cases hn : n < l.length
  · rw [hz n hn]
    norm_num
  · rw [List.getD_eq_getElem?_getD, List.getElem?_eq_none (by omega)]
    simp [FiniteFieldElement.ZERO]

theorem replicate_getD_zero (n m : Nat) :
    ((List.replicate n FiniteFieldElement.ZERO).getD m
      FiniteFieldElement.ZERO).value = 0 := by
  rw [List.getD_eq_getElem?_getD, List.getElem?_replicate]
  by_cases h : m < n <;> simp [h, FiniteFieldElement.ZERO]

/-- C2 -- for canonical polynomials a and b over one prime field (the
prime below 2^127, as any i128 prime is), with b not the zero polynomial
and deg(a) at least deg(b), `Polynomial::div` succeeds and returns a
quotient and a trimmed remainder satisfying a = q * b + r over ZMod p with
deg(r) < deg(b), and an exact division returns the empty remainder. -/
theorem polynomial_div_spec (p : ℕ) [Fact (Nat.Prime p)]
    (hp128 : (p : Int) < 2 ^ 127) (a b : Stark.Polynomial)
    (ha : canonList p a.coefficients) (hb : canonList p b.coefficients)
    (hbnz : toPoly p b.coefficients ≠ 0) (hdeg : b.degree ≤ a.degree) :
    ∃ q r, a.div b = some (q, r) ∧
      toPoly p a.coefficients =
        toPoly p q.coefficients * toPoly p b.coefficients +
          toPoly p r.coefficients ∧
      (toPoly p r.coefficients).degree < (toPoly p b.coefficients).degree ∧
      (toPoly p b.coefficients ∣ toPoly p a.coefficients →
        r.coefficients = []) := by
  have hp2 : 2 ≤ p := (Fact.out : Nat.Prime p).two_le
  have hp : (0 : Int) < (p : Int) := by exact_mod_cast (show 0 < p by omega)
  set bl := b.coefficients with hbldef
  set al := a.coefficients with haldef
  -- b has a non-zero coefficient
  have hall : (bl.all fun c => c.is_zero) = false := by
    by_contra hcon
    have htrue : (bl.all fun c => c.is_zero) = true := by
      cases h : bl.all fun c => c.is_zero
      · exact absurd h hcon
      · rfl
    refine hbnz (toPoly_zero_of_all_zero p bl ?_)
    intro m hm
    have hmem : bl.getD m FiniteFieldElement.ZERO ∈ bl := by
      rw [List.getD_eq_getElem?_getD, List.getElem?_eq_getElem hm]
      exact List.getElem_mem hm
    have := (List.all_eq_true.mp htrue) _ hmem
    simpa [FiniteFieldElement.is_zero] using this
  have hlnl : 1 ≤ Polynomial.lastNonzeroLen bl := by
    by_contra hcon
    have h0 : Polynomial.lastNonzeroLen bl = 0 := by omega
    refine hbnz (toPoly_zero_of_all_zero p bl ?_)
    intro m _
    exact getD_value_zero_of_ge_lastNonzeroLen bl m (by omega)
  have hddeg_lt : b.degree < bl.length := by
    have h1 := lastNonzeroLen_le_length bl
    show Polynomial.lastNonzeroLen bl - 1 < bl.length
    omega
  have hblz : ∀ m, b.degree < m → m < bl.length →
      (bl.getD m FiniteFieldElement.ZERO).value = 0 := by
    intro m hm _
    refine getD_value_zero_of_ge_lastNonzeroLen bl m ?_
    show Polynomial.lastNonzeroLen bl ≤ m
    have : b.degree = Polynomial.lastNonzeroLen bl - 1 := rfl
    omega
  -- the leading coefficient and its inverse
  have hlead := hb b.degree hddeg_lt
  have hleadnz : (bl.getD b.degree FiniteFieldElement.ZERO).value ≠ 0 := by
    have := lastNonzeroLen_last_nonzero bl (by omega)
    have hshow : b.degree = Polynomial.lastNonzeroLen bl - 1 := rfl
    rw [hshow]
    intro hv
    refine this ?_
    simp only [FiniteFieldElement.is_zero]
    rw [hv]
    decide
  have hlinv : 0 ≤ (bl.getD b.degree FiniteFieldElement.ZERO).inverse.value := by
    have := pow_range (bl.getD b.degree FiniteFieldElement.ZERO)
      ((bl.getD b.degree FiniteFieldElement.ZERO).field.prime - 2)
      (by rw [hlead.1]; exact hp) hlead.2.1
    exact this.2.1
  have hinvmul :
      ((bl.getD b.degree FiniteFieldElement.ZERO).value : ZMod p) *
        (((bl.getD b.degree FiniteFieldElement.ZERO).inverse.value : Int) :
          ZMod p) = 1 := by
    obtain ⟨_, _, _, hcast⟩ := pow_spec p hp
      (bl.getD b.degree FiniteFieldElement.ZERO) hlead.1 hlead.2.1
      ((bl.getD b.degree FiniteFieldElement.ZERO).field.prime - 2)
      (by
        rw [hlead.1]
        have hlt : ((p : Int) - 2).toNat < 2 ^ 128 := by
          have h127 : (2 : Int) ^ 127 < 2 ^ 128 := by norm_num
          omega
        exact hlt)
    rw [FiniteFieldElement.inverse, hcast]
    have hexp : (((bl.getD b.degree FiniteFieldElement.ZERO).field.prime - 2)).toNat
        = p - 2 := by
      rw [hlead.1]
      omega
    rw [hexp, mul_comm]
    exact cast_pow_sub_two_mul_self p _
      (intCast_ne_zero_of_range p _ hlead.2.1 hlead.2.2 hleadnz)
  -- run the loop invariant
  obtain ⟨hf1, hf2, hf3, hf4⟩ :=
    divLoop_inv p hp bl b.degree
      (bl.getD b.degree FiniteFieldElement.ZERO).inverse hb hddeg_lt hblz
      hlinv hinvmul (a.degree - b.degree + 1) al
      (List.replicate (a.degree - b.degree + 1) FiniteFieldElement.ZERO)
      ha
      (by
        intro m hm _
        refine getD_value_zero_of_ge_lastNonzeroLen al m ?_
        have h1 : a.degree = Polynomial.lastNonzeroLen al - 1 := rfl
        omega)
      (fun m2 _ => replicate_getD_zero _ m2)
      (by rw [List.length_replicate])
  have hq0 : toPoly p
      (List.replicate (a.degree - b.degree + 1) FiniteFieldElement.ZERO) = 0 :=
    toPoly_zero_of_all_zero p _ (fun m _ => replicate_getD_zero _ m)
  rw [hq0, zero_mul, zero_add] at hf4
  -- unfold div
  have hdiv : a.div b = some
      (Polynomial.new_ff (Polynomial.divLoop bl b.degree
          ((bl.getD b.degree FiniteFieldElement.ZERO).inverse)
          (a.degree - b.degree + 1)
          (al, List.replicate (a.degree - b.degree + 1)
            FiniteFieldElement.ZERO)).2,
        (Polynomial.new_ff (Polynomial.divLoop bl b.degree
          ((bl.getD b.degree FiniteFieldElement.ZERO).inverse)
          (a.degree - b.degree + 1)
          (al, List.replicate (a.degree - b.degree + 1)
            FiniteFieldElement.ZERO)).1).trim) := by
    rw [Stark.Polynomial.div.eq_def]
    rw [if_neg (by rw [← hbldef, hall]; exact Bool.false_ne_true)]
    rw [if_neg (by omega)]
  have hnf : ∀ l, (Polynomial.new_ff l).coefficients = l := fun _ => rfl
  set dfin := (Polynomial.divLoop bl b.degree
      ((bl.getD b.degree FiniteFieldElement.ZERO).inverse)
      (a.degree - b.degree + 1)
      (al, List.replicate (a.degree - b.degree + 1)
        FiniteFieldElement.ZERO)).1 with hdfin
  have heq : ((Polynomial.new_ff dfin).trim).coefficients =
      dfin.take (Polynomial.lastNonzeroLen dfin) := rfl
  have htrim : toPoly p (dfin.take (Polynomial.lastNonzeroLen dfin)) =
      toPoly p dfin := by
    refine toPoly_take_of_zero_beyond p _ _ ?_
    intro m hm _
    exact getD_value_zero_of_ge_lastNonzeroLen _ m hm
  have hrlen : Polynomial.lastNonzeroLen dfin ≤ b.degree := by
    refine lastNonzeroLen_le_of_zero_beyond _ _ ?_
    intro m hm hlen
    exact hf3 m hm (by rw [← hf1]; exact hlen)
  have hbdeg : (toPoly p bl).degree = ((b.degree : ℕ) : WithBot ℕ) := by
    refine le_antisymm ?_ ?_
    · rw [Polynomial.degree_le_iff_coeff_zero]
      intro m hm
      have hmn : b.degree < m := by exact_mod_cast hm
      rw [toPoly_coeff]
      by_cases hml : m < bl.length
      · rw [hblz m hmn hml]
        norm_num
      · rw [List.getD_eq_getElem?_getD, List.getElem?_eq_none (by omega)]
        simp [FiniteFieldElement.ZERO]
    · refine Polynomial.le_degree_of_ne_zero ?_
      rw [toPoly_coeff]
      exact intCast_ne_zero_of_range p _ hlead.2.1 hlead.2.2 hleadnz
  refine ⟨_, _, hdiv, ?_, ?_, ?_⟩
  · -- the division identity
    rw [hnf, heq, htrim, hf4]
  · -- remainder degree below divisor degree
    rw [heq, hbdeg]
    rw [Polynomial.degree_lt_iff_coeff_zero]
    intro m hm
    have hmn : b.degree ≤ m := by exact_mod_cast hm
    rw [toPoly_coeff]
    have hget : (dfin.take (Polynomial.lastNonzeroLen dfin)).getD m
        FiniteFieldElement.ZERO = FiniteFieldElement.ZERO := by
      rw [List.getD_eq_getElem?_getD, List.getElem?_eq_none]
      · rfl
      · rw [List.length_take]
        omega
    rw [hget]
    simp [FiniteFieldElement.ZERO]
  · -- exact division leaves the empty remainder
    intro hdvd
    by_contra hne
    have hlnlr : 0 < Polynomial.lastNonzeroLen dfin := by
      by_contra hzero
      refine hne ?_
      rw [heq]
      have h0 : Polynomial.lastNonzeroLen dfin = 0 := by omega
      rw [h0]
      exact List.take_zero _
    have htop : (toPoly p (dfin.take (Polynomial.lastNonzeroLen dfin))).coeff
        (Polynomial.lastNonzeroLen dfin - 1) ≠ 0 := by
      rw [toPoly_coeff]
      have hidx : Polynomial.lastNonzeroLen dfin - 1 <
          Polynomial.lastNonzeroLen dfin := by omega
      have hgt : (dfin.take (Polynomial.lastNonzeroLen dfin)).getD
          (Polynomial.lastNonzeroLen dfin - 1) FiniteFieldElement.ZERO =
          dfin.getD (Polynomial.lastNonzeroLen dfin - 1)
            FiniteFieldElement.ZERO := by
        rw [List.getD_eq_getElem?_getD, List.getElem?_take_of_lt hidx,
          ← List.getD_eq_getElem?_getD]
      rw [hgt]
      have hlast := lastNonzeroLen_last_nonzero dfin hlnlr
      have hvnz : (dfin.getD (Polynomial.lastNonzeroLen dfin - 1)
          FiniteFieldElement.ZERO).value ≠ 0 := by
        intro hv
        refine hlast ?_
        simp only [FiniteFieldElement.is_zero]
        rw [hv]
        decide
      have hidx2 : Polynomial.lastNonzeroLen dfin - 1 < dfin.length := by
        have := lastNonzeroLen_le_length dfin
        omega
      have hcanon := hf2 (Polynomial.lastNonzeroLen dfin - 1)
        (by rw [hf1] at hidx2 ⊢; exact hidx2)
      exact intCast_ne_zero_of_range p _ hcanon.2.1 hcanon.2.2 hvnz
    have hrnz : toPoly p (dfin.take (Polynomial.lastNonzeroLen dfin)) ≠ 0 := by
      intro h
      rw [h] at htop
      exact htop (Polynomial.coeff_zero _)
    have hdvdr : toPoly p bl ∣ toPoly p dfin := by
      have hsub : toPoly p dfin = toPoly p al -
          toPoly p (Polynomial.divLoop bl b.degree
            ((bl.getD b.degree FiniteFieldElement.ZERO).inverse)
            (a.degree - b.degree + 1)
            (al, List.replicate (a.degree - b.degree + 1)
              FiniteFieldElement.ZERO)).2 * toPoly p bl := by
        rw [← hf4]
        ring
      rw [hsub]
      exact dvd_sub hdvd (Dvd.intro_left _ rfl)
    have hdvdr2 : toPoly p bl ∣
        toPoly p (dfin.take (Polynomial.lastNonzeroLen dfin)) := by
      rw [htrim]
      exact hdvdr
    have hdegler : (toPoly p bl).degree ≤
        (toPoly p (dfin.take (Polynomial.lastNonzeroLen dfin))).degree :=
      Polynomial.degree_le_of_dvd hdvdr2 hrnz
    have hrless : (toPoly p (dfin.take (Polynomial.lastNonzeroLen dfin))).degree
        < (toPoly p bl).degree := by
      rw [hbdeg, Polynomial.degree_lt_iff_coeff_zero]
      intro m hm
      have hmn : b.degree ≤ m := by exact_mod_cast hm
      rw [toPoly_coeff]
      have hget : (dfin.take (Polynomial.lastNonzeroLen dfin)).getD m
          FiniteFieldElement.ZERO = FiniteFieldElement.ZERO := by
        rw [List.getD_eq_getElem?_getD, List.getElem?_eq_none]
        · rfl
        · rw [List.length_take]
          omega
      rw [hget]
      simp [FiniteFieldElement.ZERO]
    exact absurd hdegler (not_le.mpr hrless)

theorem polynomial_div_spec_witness :
    ∃ q r,
      (Stark.Polynomial.new_ff
          [⟨3221225469, ⟨3221225473⟩⟩, ⟨0, ⟨3221225473⟩⟩,
            ⟨3221225471, ⟨3221225473⟩⟩, ⟨1, ⟨3221225473⟩⟩]).div
        (Stark.Polynomial.new_ff
          [⟨3221225470, ⟨3221225473⟩⟩, ⟨1, ⟨3221225473⟩⟩]) = some (q, r) ∧
      toPoly defaultP (Stark.Polynomial.new_ff
          [⟨3221225469, ⟨3221225473⟩⟩, ⟨0, ⟨3221225473⟩⟩,
            ⟨3221225471, ⟨3221225473⟩⟩, ⟨1, ⟨3221225473⟩⟩]).coefficients =
        toPoly defaultP q.coefficients *
          toPoly defaultP (Stark.Polynomial.new_ff
            [⟨3221225470, ⟨3221225473⟩⟩, ⟨1, ⟨3221225473⟩⟩]).coefficients +
          toPoly defaultP r.coefficients ∧
      (toPoly defaultP r.coefficients).degree <
        (toPoly defaultP (Stark.Polynomial.new_ff
          [⟨3221225470, ⟨3221225473⟩⟩, ⟨1, ⟨3221225473⟩⟩]).coefficients).degree ∧
      (toPoly defaultP (Stark.Polynomial.new_ff
          [⟨3221225470, ⟨3221225473⟩⟩, ⟨1, ⟨3221225473⟩⟩]).coefficients ∣
        toPoly defaultP (Stark.Polynomial.new_ff
          [⟨3221225469, ⟨3221225473⟩⟩, ⟨0, ⟨3221225473⟩⟩,
            ⟨3221225471, ⟨3221225473⟩⟩, ⟨1, ⟨3221225473⟩⟩]).coefficients →
        r.coefficients = []) :=
  polynomial_div_spec defaultP (by norm_num [defaultP])
    (Stark.Polynomial.new_ff
      [⟨3221225469, ⟨3221225473⟩⟩, ⟨0, ⟨3221225473⟩⟩,
        ⟨3221225471, ⟨3221225473⟩⟩, ⟨1, ⟨3221225473⟩⟩])
    (Stark.Polynomial.new_ff
      [⟨3221225470, ⟨3221225473⟩⟩, ⟨1, ⟨3221225473⟩⟩])
    (by unfold canonList; decide) (by unfold canonList; decide)
    (by
      intro h
      have h1 : (toPoly defaultP (Stark.Polynomial.new_ff
          [⟨3221225470, ⟨3221225473⟩⟩, ⟨1, ⟨3221225473⟩⟩]).coefficients).coeff
          1 = 0 := by rw [h]; exact Polynomial.coeff_zero 1
      rw [toPoly_coeff] at h1
      have h2 : (((Stark.Polynomial.new_ff
          [⟨3221225470, ⟨3221225473⟩⟩, ⟨1, ⟨3221225473⟩⟩]).coefficients).getD
          1 FiniteFieldElement.ZERO).value = 1 := rfl
      rw [h2, Int.cast_one] at h1
      exact one_ne_zero h1)
    (by decide)

theorem DEFAULT_FIELD_prime :
    FiniteFieldElement.DEFAULT_FIELD.prime = (defaultP : Int) := by
  show FiniteFieldElement.DEFAULT_FIELD_SIZE = (defaultP : Int)
  exact defaultP_cast.symm

theorem allD_getD {l : List FiniteFieldElement} (h : allD l) (n : ℕ) :
    (l.getD n FiniteFieldElement.ZERO).field =
      FiniteFieldElement.DEFAULT_FIELD := by
  by_cases hn : n < l.length
  · refine h _ ?_
    rw [List.getD_eq_getElem?_getD, List.getElem?_eq_getElem hn]
    exact List.getElem_mem hn
  · rw [List.getD_eq_default _ _ (by omega)]
    rfl

theorem allD_getD_prime {l : List FiniteFieldElement} (h : allD l) (n : ℕ) :
    (l.getD n FiniteFieldElement.ZERO).field.prime = (defaultP : Int) := by
  rw [allD_getD h n]
  exact DEFAULT_FIELD_prime

theorem add_field (a b : FiniteFieldElement) : (a.add b).field = a.field := rfl

theorem powAux_cast (p : ℕ) :
    ∀ (fuel exp : ℕ) (result base : FiniteFieldElement),
      exp < 2 ^ fuel →
      result.field = base.field → base.field.prime = (p : Int) →
      (FiniteFieldElement.powAux fuel result base exp).field = result.field ∧
        (((FiniteFieldElement.powAux fuel result base exp).value : Int) :
            ZMod p) =
          (result.value : ZMod p) * (base.value : ZMod p) ^ exp := by
  intro fuel
  induction fuel with
  | zero =>
    intro exp result base hfuel _ _
    have hz : exp = 0 := by omega
    subst hz
    simp [FiniteFieldElement.powAux]
  | succ f ih =>
    intro exp result base hfuel hrb hbp
    rw [FiniteFieldElement.powAux]
    by_cases hz : exp = 0
    · simp [hz]
    · rw [if_neg hz]
      have hhalf : exp / 2 < 2 ^ f := by
        rw [pow_succ] at hfuel
        omega
      have hrp : result.field.prime = (p : Int) := by rw [hrb]; exact hbp
      have hrb2 :
          (if exp % 2 = 1 then result.multiply base else result).field =
            (base.multiply base).field := by
        by_cases h : exp % 2 = 1 <;> simp [h, multiply_field, hrb]
      have hbp2 : (base.multiply base).field.prime = (p : Int) := by
        rw [multiply_field]
        exact hbp
      obtain ⟨ihf, ihc⟩ :=
        ih (exp / 2) (if exp % 2 = 1 then result.multiply base else result)
          (base.multiply base) hhalf hrb2 hbp2
      constructor
      · rw [ihf]
        by_cases h : exp % 2 = 1 <;> simp [h, multiply_field]
      · rw [ihc]
        have hsq := multiply_cast base base p hbp
        have hodd :
            (((if exp % 2 = 1 then result.multiply base else result).value :
                Int) : ZMod p) =
              (result.value : ZMod p) * (base.value : ZMod p) ^ (exp % 2) := by
          by_cases h : exp % 2 = 1
          · simp [h, multiply_cast result base p hrp]
          · have h0 : exp % 2 = 0 := by omega
            simp [h, h0]
        rw [hodd, hsq]
        have hexp : exp = exp % 2 + 2 * (exp / 2) := by omega
        conv_rhs => rw [hexp]
        rw [pow_add, pow_mul]
        ring

theorem pow_cast (p : ℕ) (a : FiniteFieldElement)
    (hf : a.field.prime = (p : Int)) (e : Int) (he : e.toNat < 2 ^ 128) :
    (a.pow e).field = a.field ∧
      (((a.pow e).value : Int) : ZMod p) = (a.value : ZMod p) ^ e.toNat := by
  obtain ⟨hfld, hc⟩ :=
    powAux_cast p 128 e.toNat (FiniteFieldElement.new_fielded 1 a.field) a he
      (by rw [new_fielded_field]) hf
  rw [new_fielded_field] at hfld
  refine ⟨hfld, ?_⟩
  show (((FiniteFieldElement.powAux 128
      (FiniteFieldElement.new_fielded 1 a.field) a e.toNat).value : Int) :
      ZMod p) = _
  rw [hc]
  have hone : (((FiniteFieldElement.new_fielded 1 a.field).value : Int) :
      ZMod p) = 1 := by
    show (((1 : Int).tmod a.field.prime : Int) : ZMod p) = 1
    rw [hf, tmod_intCast]
    norm_num
  rw [hone, one_mul]

theorem inverse_cast (p : ℕ) (hp128 : (p : Int) < 2 ^ 127) (hp2 : 2 ≤ p)
    (a : FiniteFieldElement) (hf : a.field.prime = (p : Int)) :
    a.inverse.field = a.field ∧
      ((a.inverse.value : Int) : ZMod p) = (a.value : ZMod p) ^ (p - 2) := by
  have he : (a.field.prime - 2).toNat < 2 ^ 128 := by
    rw [hf]
    have h2 : (2 : Int) ^ 127 < 2 ^ 128 := by norm_num
    omega
  obtain ⟨hfld, hc⟩ := pow_cast p a hf (a.field.prime - 2) he
  constructor
  · exact hfld
  · show (((a.pow (a.field.prime - 2)).value : Int) : ZMod p) = _
    rw [hc]
    congr 1
    rw [hf]
    omega

theorem range_map_getD (M n : ℕ) (f : ℕ → FiniteFieldElement) :
    ((List.range M).map f).getD n FiniteFieldElement.ZERO =
      if n < M then f n else FiniteFieldElement.ZERO := by
  by_cases h : n < M
  · rw [if_pos h, List.getD_eq_getElem?_getD, List.getElem?_map,
      List.getElem?_range h]
    rfl
  · rw [if_neg h]
    refine List.getD_eq_default _ _ ?_
    rw [List.length_map, List.length_range]
    omega

theorem toPoly_add_hom (a b : Stark.Polynomial) (ha : allD a.coefficients) :
    toPoly defaultP (Stark.Polynomial.add a b).coefficients =
      toPoly defaultP a.coefficients + toPoly defaultP b.coefficients := by
  have hco : (Stark.Polynomial.add a b).coefficients =
      (List.range (max a.coefficients.length b.coefficients.length)).map
        (fun i =>
          (a.coefficients.getD i FiniteFieldElement.ZERO).add
            (b.coefficients.getD i FiniteFieldElement.ZERO)) := rfl
  apply Polynomial.ext
  intro n
  rw [Polynomial.coeff_add, toPoly_coeff, toPoly_coeff, toPoly_coeff, hco,
    range_map_getD]
  by_cases h : n < max a.coefficients.length b.coefficients.length
  · rw [if_pos h]
    exact add_cast _ _ defaultP (allD_getD_prime ha n)
  · rw [if_neg h, List.getD_eq_default _ _ (by omega),
      List.getD_eq_default _ _ (by omega)]
    simp [FiniteFieldElement.ZERO]

theorem allD_add (a b : Stark.Polynomial) (ha : allD a.coefficients) :
    allD (Stark.Polynomial.add a b).coefficients := by
  have hco : (Stark.Polynomial.add a b).coefficients =
      (List.range (max a.coefficients.length b.coefficients.length)).map
        (fun i =>
          (a.coefficients.getD i FiniteFieldElement.ZERO).add
            (b.coefficients.getD i FiniteFieldElement.ZERO)) := rfl
  intro c hc
  rw [hco] at hc
  obtain ⟨i, _, rfl⟩ := List.mem_map.mp hc
  rw [add_field]
  exact allD_getD ha i

theorem toPoly_multiply_scalar_hom (a : Stark.Polynomial) (s : Int)
    (ha : allD a.coefficients) :
    toPoly defaultP (Stark.Polynomial.multiply_scalar a s).coefficients =
      Polynomial.C ((s : ZMod defaultP)) * toPoly defaultP a.coefficients := by
  have hco : (Stark.Polynomial.multiply_scalar a s).coefficients =
      a.coefficients.map
        (fun c => c.multiply (FiniteFieldElement.new s)) := rfl
  apply Polynomial.ext
  intro n
  rw [toPoly_coeff, Polynomial.coeff_C_mul, toPoly_coeff, hco]
  by_cases h : n < a.coefficients.length
  · have hg : (a.coefficients.map
        (fun c => c.multiply (FiniteFieldElement.new s))).getD n
        FiniteFieldElement.ZERO =
        (a.coefficients.getD n FiniteFieldElement.ZERO).multiply
          (FiniteFieldElement.new s) := by
      rw [List.getD_eq_getElem?_getD, List.getElem?_map,
        List.getElem?_eq_getElem h, List.getD_eq_getElem?_getD,
        List.getElem?_eq_getElem h]
      rfl
    rw [hg, multiply_cast _ _ defaultP (allD_getD_prime ha n),
      new_cast s defaultP defaultP_cast.symm]
    ring
  · rw [List.getD_eq_default _ _ (by rw [List.length_map]; omega),
      List.getD_eq_default _ _ (by omega)]
    simp [FiniteFieldElement.ZERO]

theorem allD_multiply_scalar (a : Stark.Polynomial) (s : Int)
    (ha : allD a.coefficients) :
    allD (Stark.Polynomial.multiply_scalar a s).coefficients := by
  have hco : (Stark.Polynomial.multiply_scalar a s).coefficients =
      a.coefficients.map
        (fun c => c.multiply (FiniteFieldElement.new s)) := rfl
  intro c hc
  rw [hco] at hc
  obtain ⟨d, hd, rfl⟩ := List.mem_map.mp hc
  rw [multiply_field]
  exact ha d hd

theorem mult_fold_cast (la lb : List FiniteFieldElement) (k : ℕ)
    (ha : allD la) :
    ∀ m : ℕ,
      ((List.range m).foldl
        (fun acc i =>
          if i ≤ k ∧ k - i < lb.length then
            acc.add ((la.getD i FiniteFieldElement.ZERO).multiply
              (lb.getD (k - i) FiniteFieldElement.ZERO))
          else acc)
        FiniteFieldElement.ZERO).field = FiniteFieldElement.DEFAULT_FIELD ∧
      ((((List.range m).foldl
        (fun acc i =>
          if i ≤ k ∧ k - i < lb.length then
            acc.add ((la.getD i FiniteFieldElement.ZERO).multiply
              (lb.getD (k - i) FiniteFieldElement.ZERO))
          else acc)
        FiniteFieldElement.ZERO).value : Int) : ZMod defaultP) =
        ∑ i ∈ Finset.range m,
          if i ≤ k ∧ k - i < lb.length then
            (((la.getD i FiniteFieldElement.ZERO).value : Int) :
                ZMod defaultP) *
              (((lb.getD (k - i) FiniteFieldElement.ZERO).value : Int) :
                ZMod defaultP)
          else 0 := by
  intro m
  induction m with
  | zero => simp [FiniteFieldElement.ZERO]
  | succ j ih =>
    rw [List.range_succ, List.foldl_append, List.foldl_cons, List.foldl_nil]
    obtain ⟨ihf, ihc⟩ := ih
    constructor
    · by_cases h : j ≤ k ∧ k - j < lb.length
      · rw [if_pos h, add_field]
        exact ihf
      · rw [if_neg h]
        exact ihf
    · rw [Finset.sum_range_succ, ← ihc]
      by_cases h : j ≤ k ∧ k - j < lb.length
      · rw [if_pos h, if_pos h,
          add_cast _ _ defaultP (by rw [ihf]; exact DEFAULT_FIELD_prime),
          multiply_cast _ _ defaultP (allD_getD_prime ha j)]
      · rw [if_neg h, if_neg h, add_zero]

theorem toPoly_multiply_hom (a b : Stark.Polynomial) (ha : allD a.coefficients) :
    toPoly defaultP (Stark.Polynomial.multiply a b).coefficients =
      toPoly defaultP a.coefficients * toPoly defaultP b.coefficients := by
  by_cases hz : a.coefficients = [] ∨ b.coefficients = []
  · have hm : Stark.Polynomial.multiply a b = ⟨[]⟩ := by
      rw [Stark.Polynomial.multiply.eq_def]
      rw [if_pos hz]
    rw [hm]
    cases hz with
    | inl h => rw [h, toPoly_nil, zero_mul]
    | inr h => rw [h, toPoly_nil, mul_zero]
  · push_neg at hz
    have hla : 0 < a.coefficients.length := List.length_pos.mpr hz.1
    have hlb : 0 < b.coefficients.length := List.length_pos.mpr hz.2
    have hm : (Stark.Polynomial.multiply a b).coefficients =
        (List.range (a.coefficients.length + b.coefficients.length - 1)).map
          (fun k =>
            (List.range a.coefficients.length).foldl
              (fun acc i =>
                if i ≤ k ∧ k - i < b.coefficients.length then
                  acc.add
                    ((a.coefficients.getD i FiniteFieldElement.ZERO).multiply
                      (b.coefficients.getD (k - i) FiniteFieldElement.ZERO))
                else acc)
              FiniteFieldElement.ZERO) := by
      rw [Stark.Polynomial.multiply.eq_def]
      rw [if_neg (by push_neg; exact hz)]
    apply Polynomial.ext
    intro k
    rw [toPoly_coeff, hm, range_map_getD, Polynomial.coeff_mul,
      Finset.Nat.sum_antidiagonal_eq_sum_range_succ_mk]
    simp only [toPoly_coeff]
    by_cases hk : k < a.coefficients.length + b.coefficients.length - 1
    · rw [if_pos hk,
        (mult_fold_cast a.coefficients b.coefficients k ha
          a.coefficients.length).2]
      set M := max a.coefficients.length (k + 1) with hM
      have h1 : ∑ i ∈ Finset.range a.coefficients.length,
          (if i ≤ k ∧ k - i < b.coefficients.length then
            (((a.coefficients.getD i FiniteFieldElement.ZERO).value : Int) :
                ZMod defaultP) *
              (((b.coefficients.getD (k - i)
                  FiniteFieldElement.ZERO).value : Int) : ZMod defaultP)
          else 0) =
          ∑ i ∈ Finset.range M,
            (if i ≤ k then
              (((a.coefficients.getD i FiniteFieldElement.ZERO).value : Int) :
                  ZMod defaultP) *
                (((b.coefficients.getD (k - i)
                    FiniteFieldElement.ZERO).value : Int) : ZMod defaultP)
            else 0) := by
        rw [Finset.sum_subset
          (Finset.range_subset.mpr (le_max_left a.coefficients.length (k + 1)))]
        · refine Finset.sum_congr rfl ?_
          intro i hi
          by_cases hik : i ≤ k
          · by_cases hkb : k - i < b.coefficients.length
            · rw [if_pos ⟨hik, hkb⟩, if_pos hik]
            · rw [if_neg (by tauto), if_pos hik,
                List.getD_eq_default b.coefficients _ (by omega)]
              simp [FiniteFieldElement.ZERO]
          · rw [if_neg (by tauto), if_neg hik]
        · intro i _ hnotin
          have hge : a.coefficients.length ≤ i := by
            by_contra hcon
            exact hnotin (Finset.mem_range.mpr (by omega))
          by_cases hik : i ≤ k ∧ k - i < b.coefficients.length
          · rw [if_pos hik, List.getD_eq_default a.coefficients _ (by omega)]
            simp [FiniteFieldElement.ZERO]
          · rw [if_neg hik]
      have h2 : ∑ i ∈ Finset.range (k + 1),
          (((a.coefficients.getD i FiniteFieldElement.ZERO).value : Int) :
              ZMod defaultP) *
            (((b.coefficients.getD (k - i)
                FiniteFieldElement.ZERO).value : Int) : ZMod defaultP) =
          ∑ i ∈ Finset.range M,
            (if i ≤ k then
              (((a.coefficients.getD i FiniteFieldElement.ZERO).value : Int) :
                  ZMod defaultP) *
                (((b.coefficients.getD (k - i)
                    FiniteFieldElement.ZERO).value : Int) : ZMod defaultP)
            else 0) := by
        have hstep : ∀ i ∈ Finset.range (k + 1),
            (((a.coefficients.getD i FiniteFieldElement.ZERO).value : Int) :
                ZMod defaultP) *
              (((b.coefficients.getD (k - i)
                  FiniteFieldElement.ZERO).value : Int) : ZMod defaultP) =
            (if i ≤ k then
              (((a.coefficients.getD i FiniteFieldElement.ZERO).value : Int) :
                  ZMod defaultP) *
                (((b.coefficients.getD (k - i)
                    FiniteFieldElement.ZERO).value : Int) : ZMod defaultP)
            else 0) := by
          intro i hi
          rw [if_pos (by have := Finset.mem_range.mp hi; omega)]
        rw [Finset.sum_congr rfl hstep]
        refine Finset.sum_subset
          (Finset.range_subset.mpr
            (le_max_right a.coefficients.length (k + 1))) ?_
        intro i _ hnotin
        have hge : k + 1 ≤ i := by
          by_contra hcon
          exact hnotin (Finset.mem_range.mpr (by omega))
        rw [if_neg (by omega)]
      rw [h1, h2]
    · rw [if_neg hk]
      have h0 : ((FiniteFieldElement.ZERO.value : Int) : ZMod defaultP) = 0 := by
        simp [FiniteFieldElement.ZERO]
      rw [h0]
      symm
      refine Finset.sum_eq_zero ?_
      intro i _
      by_cases hia : i < a.coefficients.length
      · rw [List.getD_eq_default b.coefficients _ (by omega)]
        simp [FiniteFieldElement.ZERO]
      · rw [List.getD_eq_default a.coefficients _ (by omega)]
        simp [FiniteFieldElement.ZERO]

theorem allD_multiply (a b : Stark.Polynomial) (ha : allD a.coefficients) :
    allD (Stark.Polynomial.multiply a b).coefficients := by
  intro c hc
  by_cases hz : a.coefficients = [] ∨ b.coefficients = []
  · have hm : Stark.Polynomial.multiply a b = ⟨[]⟩ := by
      rw [Stark.Polynomial.multiply.eq_def]
      rw [if_pos hz]
    rw [hm] at hc
    cases hc
  · have hm : (Stark.Polynomial.multiply a b).coefficients =
        (List.range (a.coefficients.length + b.coefficients.length - 1)).map
          (fun k =>
            (List.range a.coefficients.length).foldl
              (fun acc i =>
                if i ≤ k ∧ k - i < b.coefficients.length then
                  acc.add
                    ((a.coefficients.getD i FiniteFieldElement.ZERO).multiply
                      (b.coefficients.getD (k - i) FiniteFieldElement.ZERO))
                else acc)
              FiniteFieldElement.ZERO) := by
      rw [Stark.Polynomial.multiply.eq_def]
      rw [if_neg hz]
    rw [hm] at hc
    obtain ⟨kk, _, rfl⟩ := List.mem_map.mp hc
    exact (mult_fold_cast a.coefficients b.coefficients kk ha
      a.coefficients.length).1

theorem eval_toPoly (p : ℕ) (z : ZMod p) :
    ∀ l : List FiniteFieldElement,
      Polynomial.eval z (toPoly p l) =
        ∑ i ∈ Finset.range l.length,
          (((l.getD i FiniteFieldElement.ZERO).value : Int) : ZMod p) *
            z ^ i := by
  intro l
  induction l with
  | nil => simp [toPoly_nil]
  | cons c t ih =>
    rw [toPoly_cons, Polynomial.eval_add, Polynomial.eval_C,
      Polynomial.eval_mul, Polynomial.eval_X, ih, List.length_cons,
      Finset.sum_range_succ', add_comm]
    congr 1
    · rw [Finset.mul_sum]
      refine Finset.sum_congr rfl ?_
      intro i _
      rw [List.getD_cons_succ]
      ring
    · rw [List.getD_cons_zero, pow_zero, mul_one]

theorem evaluate_fold_cast (x : FiniteFieldElement)
    (hx : x.field = FiniteFieldElement.DEFAULT_FIELD) :
    ∀ (l : List FiniteFieldElement) (k : ℕ) (acc : FiniteFieldElement),
      k + l.length ≤ 2 ^ 127 →
      allD l →
      acc.field = FiniteFieldElement.DEFAULT_FIELD →
      ((l.enumFrom k).foldl
        (fun result ic => result.add ((x.pow (ic.1 : Int)).multiply ic.2))
        acc).field = FiniteFieldElement.DEFAULT_FIELD ∧
      ((((l.enumFrom k).foldl
        (fun result ic => result.add ((x.pow (ic.1 : Int)).multiply ic.2))
        acc).value : Int) : ZMod defaultP) =
        ((acc.value : Int) : ZMod defaultP) +
          ∑ i ∈ Finset.range l.length,
            ((x.value : Int) : ZMod defaultP) ^ (k + i) *
              (((l.getD i FiniteFieldElement.ZERO).value : Int) :
                ZMod defaultP) := by
  intro l
  induction l with
  | nil =>
    intro k acc _ _ hacc
    exact ⟨hacc, by simp⟩
  | cons c t ih =>
    intro k acc hk hall hacc
    have hcons : (c :: t).enumFrom k = (k, c) :: t.enumFrom (k + 1) := rfl
    rw [hcons, List.foldl_cons]
    have hpow := pow_cast defaultP x
      (by rw [hx]; exact DEFAULT_FIELD_prime) (k : Int)
      (by
        rw [Int.toNat_natCast]
        have h27 : (2 : ℕ) ^ 127 < 2 ^ 128 := by norm_num
        simp only [List.length_cons] at hk
        omega)
    have haccf : (acc.add ((x.pow (k : Int)).multiply c)).field =
        FiniteFieldElement.DEFAULT_FIELD := by
      rw [add_field]
      exact hacc
    obtain ⟨ihf, ihc⟩ := ih (k + 1) (acc.add ((x.pow (k : Int)).multiply c))
      (by simp only [List.length_cons] at hk; omega)
      (fun d hd => hall d (List.mem_cons_of_mem _ hd)) haccf
    refine ⟨ihf, ?_⟩
    rw [ihc]
    have hstep : (((acc.add ((x.pow (k : Int)).multiply c)).value : Int) :
        ZMod defaultP) =
        ((acc.value : Int) : ZMod defaultP) +
          ((x.value : Int) : ZMod defaultP) ^ k *
            ((c.value : Int) : ZMod defaultP) := by
      rw [add_cast _ _ defaultP (by rw [hacc]; exact DEFAULT_FIELD_prime),
        multiply_cast _ _ defaultP
          (by rw [hpow.1, hx]; exact DEFAULT_FIELD_prime), hpow.2,
        Int.toNat_natCast]
    rw [hstep, List.length_cons, Finset.sum_range_succ']
    have hsum : ∑ i ∈ Finset.range t.length,
        ((x.value : Int) : ZMod defaultP) ^ (k + (i + 1)) *
          ((((c :: t).getD (i + 1) FiniteFieldElement.ZERO).value : Int) :
            ZMod defaultP) =
        ∑ i ∈ Finset.range t.length,
          ((x.value : Int) : ZMod defaultP) ^ (k + 1 + i) *
            (((t.getD i FiniteFieldElement.ZERO).value : Int) :
              ZMod defaultP) := by
      refine Finset.sum_congr rfl ?_
      intro i _
      rw [List.getD_cons_succ]
      congr 2
      omega
    rw [hsum, List.getD_cons_zero, add_zero]
    ring

theorem evaluate_cast (pp : Stark.Polynomial) (x : FiniteFieldElement)
    (hx : x.field = FiniteFieldElement.DEFAULT_FIELD)
    (hl : pp.coefficients.length ≤ 2 ^ 127) (ha : allD pp.coefficients) :
    (((pp.evaluate x).value : Int) : ZMod defaultP) =
      Polynomial.eval ((x.value : Int) : ZMod defaultP)
        (toPoly defaultP pp.coefficients) := by
  obtain ⟨_, hc⟩ := evaluate_fold_cast x hx pp.coefficients 0
    (FiniteFieldElement.new_fielded 0 x.field) (by omega) ha
    (by rw [new_fielded_field]; exact hx)
  have he : pp.evaluate x = (pp.coefficients.enumFrom 0).foldl
      (fun result ic => result.add ((x.pow (ic.1 : Int)).multiply ic.2))
      (FiniteFieldElement.new_fielded 0 x.field) := rfl
  rw [he, hc, eval_toPoly]
  have h0 : (((FiniteFieldElement.new_fielded 0 x.field).value : Int) :
      ZMod defaultP) = 0 := by
    show (((0 : Int).tmod x.field.prime : Int) : ZMod defaultP) = 0
    rw [hx, DEFAULT_FIELD_prime, tmod_intCast]
    norm_num
  rw [h0, zero_add]
  refine Finset.sum_congr rfl ?_
  intro i _
  rw [show 0 + i = i from by omega, mul_comm]

theorem lin_toPoly (v : Int) :
    toPoly defaultP (Stark.Polynomial.new [v, 1]).coefficients =
      Polynomial.X + Polynomial.C ((v : Int) : ZMod defaultP) := by
  show toPoly defaultP ([v, 1].map FiniteFieldElement.new) = _
  rw [List.map_cons, List.map_cons, List.map_nil, toPoly_cons, toPoly_cons,
    toPoly_nil, new_cast v defaultP defaultP_cast.symm,
    new_cast 1 defaultP defaultP_cast.symm, Int.cast_one, map_one]
  ring

theorem allD_new (l : List Int) :
    allD (Stark.Polynomial.new l).coefficients := by
  intro c hc
  obtain ⟨v, _, rfl⟩ := List.mem_map.mp hc
  rfl

theorem lagrange_basis_fold (points : List (Int × Int)) (i : ℕ) :
    ∀ (js : List ℕ) (acc : Stark.Polynomial),
      allD acc.coefficients →
      allD ((js.foldl
        (fun basis j =>
          if i = j then basis
          else basis.multiply
            (Stark.Polynomial.new [-(points.getD j (0, 0)).1, 1]))
        acc).coefficients) ∧
      toPoly defaultP ((js.foldl
        (fun basis j =>
          if i = j then basis
          else basis.multiply
            (Stark.Polynomial.new [-(points.getD j (0, 0)).1, 1]))
        acc).coefficients) =
        toPoly defaultP acc.coefficients *
          (js.map
            (fun j =>
              if i = j then 1
              else Polynomial.X -
                Polynomial.C (((points.getD j (0, 0)).1 : Int) :
                  ZMod defaultP))).prod := by
  intro js
  induction js with
  | nil =>
    intro acc hacc
    exact ⟨hacc, by rw [List.foldl_nil, List.map_nil, List.prod_nil, mul_one]⟩
  | cons j js ih =>
    intro acc hacc
    rw [List.foldl_cons, List.map_cons, List.prod_cons]
    by_cases h : i = j
    · rw [if_pos h, if_pos h, one_mul]
      exact ih acc hacc
    · rw [if_neg h, if_neg h]
      obtain ⟨ihall, ihc⟩ := ih
        (acc.multiply (Stark.Polynomial.new [-(points.getD j (0, 0)).1, 1]))
        (allD_multiply _ _ hacc)
      refine ⟨ihall, ?_⟩
      rw [ihc, toPoly_multiply_hom _ _ hacc, lin_toPoly]
      have hneg : Polynomial.X +
          Polynomial.C (((-(points.getD j (0, 0)).1 : Int)) : ZMod defaultP) =
          Polynomial.X -
            Polynomial.C (((points.getD j (0, 0)).1 : Int) : ZMod defaultP) := by
        rw [Int.cast_neg, map_neg]
        ring
      rw [hneg, mul_assoc]

theorem lagrange_denom_fold (points : List (Int × Int)) (i : ℕ) :
    ∀ (js : List ℕ) (acc : FiniteFieldElement),
      acc.field = FiniteFieldElement.DEFAULT_FIELD →
      ((js.foldl
        (fun denom j =>
          if i = j then denom
          else denom.multiply
            (FiniteFieldElement.new
              ((points.getD i (0, 0)).1 - (points.getD j (0, 0)).1)))
        acc).field = FiniteFieldElement.DEFAULT_FIELD ∧
      (((js.foldl
        (fun denom j =>
          if i = j then denom
          else denom.multiply
            (FiniteFieldElement.new
              ((points.getD i (0, 0)).1 - (points.getD j (0, 0)).1)))
        acc).value : Int) : ZMod defaultP) =
        ((acc.value : Int) : ZMod defaultP) *
          (js.map
            (fun j =>
              if i = j then (1 : ZMod defaultP)
              else (((points.getD i (0, 0)).1 -
                (points.getD j (0, 0)).1 : Int) : ZMod defaultP))).prod) := by
  intro js
  induction js with
  | nil =>
    intro acc hacc
    exact ⟨hacc, by rw [List.foldl_nil, List.map_nil, List.prod_nil, mul_one]⟩
  | cons j js ih =>
    intro acc hacc
    rw [List.foldl_cons, List.map_cons, List.prod_cons]
    by_cases h : i = j
    · rw [if_pos h, if_pos h, one_mul]
      exact ih acc hacc
    · rw [if_neg h, if_neg h]
      obtain ⟨ihf, ihc⟩ := ih
        (acc.multiply (FiniteFieldElement.new
          ((points.getD i (0, 0)).1 - (points.getD j (0, 0)).1)))
        (by rw [multiply_field]; exact hacc)
      refine ⟨ihf, ?_⟩
      rw [ihc, multiply_cast _ _ defaultP
          (by rw [hacc]; exact DEFAULT_FIELD_prime),
        new_cast _ defaultP defaultP_cast.symm]
      ring

theorem multiply_length_le (a b : Stark.Polynomial) :
    (Stark.Polynomial.multiply a b).coefficients.length ≤
      a.coefficients.length + b.coefficients.length := by
  rw [Stark.Polynomial.multiply.eq_def]
  by_cases hz : a.coefficients = [] ∨ b.coefficients = []
  · rw [if_pos hz]
    simp
  · rw [if_neg hz]
    show ((List.range _).map _).length ≤ _
    rw [List.length_map, List.length_range]
    omega

theorem multiply_scalar_length (a : Stark.Polynomial) (s : Int) :
    (Stark.Polynomial.multiply_scalar a s).coefficients.length =
      a.coefficients.length := by
  show (a.coefficients.map _).length = _
  rw [List.length_map]

theorem add_length (a b : Stark.Polynomial) :
    (Stark.Polynomial.add a b).coefficients.length =
      max a.coefficients.length b.coefficients.length := by
  show ((List.range _).map _).length = _
  rw [List.length_map, List.length_range]

theorem basis_fold_length (points : List (Int × Int)) (i : ℕ) :
    ∀ (js : List ℕ) (acc : Stark.Polynomial),
      ((js.foldl
        (fun basis j =>
          if i = j then basis
          else basis.multiply
            (Stark.Polynomial.new [-(points.getD j (0, 0)).1, 1]))
        acc).coefficients).length ≤
        acc.coefficients.length + 2 * js.length := by
  intro js
  induction js with
  | nil =>
    intro acc
    simp
  | cons j js ih =>
    intro acc
    rw [List.foldl_cons]
    by_cases h : i = j
    · rw [if_pos h]
      refine le_trans (ih acc) ?_
      rw [List.length_cons]
      omega
    · rw [if_neg h]
      refine le_trans (ih _) ?_
      have hmul := multiply_length_le acc
        (Stark.Polynomial.new [-(points.getD j (0, 0)).1, 1])
      have h2 : (Stark.Polynomial.new
          [-(points.getD j (0, 0)).1, 1]).coefficients.length = 2 := rfl
      rw [List.length_cons]
      omega

theorem prod_deg_le (f : ℕ → Polynomial (ZMod defaultP))
    (hf : ∀ j, (f j).degree ≤ 1) :
    ∀ js : List ℕ, ((js.map f).prod).degree ≤ (js.length : WithBot ℕ) := by
  intro js
  induction js with
  | nil =>
    rw [List.map_nil, List.prod_nil, Polynomial.degree_one]
    exact le_of_eq (by norm_num)
  | cons j js ih =>
    rw [List.map_cons, List.prod_cons, List.length_cons]
    refine le_trans (Polynomial.degree_mul_le _ _) ?_
    refine le_trans (add_le_add (hf j) ih) ?_
    rw [Nat.cast_add, Nat.cast_one]
    rw [add_comm]

theorem prod_deg_lt (f : ℕ → Polynomial (ZMod defaultP))
    (hf : ∀ j, (f j).degree ≤ 1) (i : ℕ) (hi : (f i).degree ≤ 0) :
    ∀ js : List ℕ, i ∈ js →
      ((js.map f).prod).degree ≤ ((js.length - 1 : ℕ) : WithBot ℕ) := by
  intro js
  induction js with
  | nil =>
    intro h
    cases h
  | cons j js ih =>
    intro hmem
    rw [List.map_cons, List.prod_cons, List.length_cons]
    by_cases h : i = j
    · refine le_trans (Polynomial.degree_mul_le _ _) ?_
      refine le_trans (add_le_add (h ▸ hi) (prod_deg_le f hf js)) ?_
      rw [zero_add]
      exact_mod_cast le_of_eq (by omega)
    · have hin : i ∈ js := by
        cases List.mem_cons.mp hmem with
        | inl hh => exact absurd hh h
        | inr hh => exact hh
      have hjs : 0 < js.length := List.length_pos.mpr
        (by intro hnil; rw [hnil] at hin; cases hin)
      refine le_trans (Polynomial.degree_mul_le _ _) ?_
      refine le_trans (add_le_add (hf j) (ih hin)) ?_
      have : (1 : WithBot ℕ) + ((js.length - 1 : ℕ) : WithBot ℕ) =
          ((js.length : ℕ) : WithBot ℕ) := by
        rw [show ((js.length : ℕ) : WithBot ℕ) =
          (((js.length - 1 : ℕ) + 1 : ℕ) : WithBot ℕ) from by congr 1; omega]
        rw [Nat.cast_add, Nat.cast_one, add_comm]
      rw [this]
      exact_mod_cast le_of_eq (by omega)

theorem lagrange_fold_cast (points : List (Int × Int)) :
    ∀ n : ℕ,
      allD (((List.range n).foldl
        (fun result i =>
          let scale :=
            (FiniteFieldElement.new (points.getD i (0, 0)).2).multiply
              (lagrangeDenom points i).inverse
          result.add ((lagrangeBasis points i).multiply_scalar scale.value))
        (Stark.Polynomial.new [])).coefficients) ∧
      toPoly defaultP (((List.range n).foldl
        (fun result i =>
          let scale :=
            (FiniteFieldElement.new (points.getD i (0, 0)).2).multiply
              (lagrangeDenom points i).inverse
          result.add ((lagrangeBasis points i).multiply_scalar scale.value))
        (Stark.Polynomial.new [])).coefficients) =
        ∑ i ∈ Finset.range n,
          Polynomial.C
            ((((FiniteFieldElement.new (points.getD i (0, 0)).2).multiply
              (lagrangeDenom points i).inverse).value : Int) : ZMod defaultP) *
            toPoly defaultP (lagrangeBasis points i).coefficients := by
  intro n
  induction n with
  | zero =>
    constructor
    · intro c hc
      cases hc
    · rw [Finset.sum_range_zero]
      rfl
  | succ m ih =>
    obtain ⟨ihall, ihc⟩ := ih
    rw [List.range_succ, List.foldl_append, List.foldl_cons, List.foldl_nil]
    have hball : allD (lagrangeBasis points m).coefficients :=
      (lagrange_basis_fold points m (List.range points.length)
        (Stark.Polynomial.new [1]) (allD_new [1])).1
    constructor
    · exact allD_add _ _ ihall
    · rw [toPoly_add_hom _ _ ihall, ihc, Finset.sum_range_succ,
        toPoly_multiply_scalar_hom _ _ hball]

theorem toPoly_new_one :
    toPoly defaultP (Stark.Polynomial.new [1]).coefficients = 1 := by
  show toPoly defaultP ([1].map FiniteFieldElement.new) = 1
  rw [List.map_cons, List.map_nil, toPoly_cons, toPoly_nil,
    new_cast 1 defaultP defaultP_cast.symm]
  simp

theorem lagrange_result_length (points : List (Int × Int)) :
    ∀ n : ℕ,
      (((List.range n).foldl
        (fun result i =>
          let scale :=
            (FiniteFieldElement.new (points.getD i (0, 0)).2).multiply
              (lagrangeDenom points i).inverse
          result.add ((lagrangeBasis points i).multiply_scalar scale.value))
        (Stark.Polynomial.new [])).coefficients).length ≤
        1 + 2 * points.length := by
  intro n
  induction n with
  | zero =>
    show ((Stark.Polynomial.new []).coefficients).length ≤ _
    simp [Stark.Polynomial.new]
  | succ m ih =>
    rw [List.range_succ, List.foldl_append, List.foldl_cons, List.foldl_nil]
    have hb2 : ((lagrangeBasis points m).coefficients).length ≤
        (Stark.Polynomial.new [1]).coefficients.length +
          2 * (List.range points.length).length :=
      basis_fold_length points m (List.range points.length)
        (Stark.Polynomial.new [1])
    have h1 : (Stark.Polynomial.new [1]).coefficients.length = 1 := rfl
    rw [h1, List.length_range] at hb2
    simp only [add_length, multiply_scalar_length]
    exact max_le ih hb2

/-- C3 -- amended: for a non-empty point list whose x-coordinates are
pairwise distinct MOD the default prime (not merely distinct as i128
integers, which the original claim wrongly allows), the interpolated
polynomial evaluates to y_i at every x_i in the field, and its image over
ZMod p has degree strictly below the number of points. -/
theorem lagrange_interpolation_spec (points : List (Int × Int))
    (hne : points ≠ []) (hsmall : points.length ≤ 2 ^ 120)
    (hdist : ∀ s, s < points.length → ∀ t, t < points.length → s ≠ t →
      (((points.getD s (0, 0)).1 : Int) : ZMod defaultP) ≠
        (((points.getD t (0, 0)).1 : Int) : ZMod defaultP)) :
    (∀ t, t < points.length →
      ((((lagrange_interpolation points).evaluate
          (FiniteFieldElement.new (points.getD t (0, 0)).1)).value : Int) :
          ZMod defaultP) =
        (((points.getD t (0, 0)).2 : Int) : ZMod defaultP)) ∧
    (toPoly defaultP (lagrange_interpolation points).coefficients).degree <
      (points.length : WithBot ℕ) := by
  have hn : 0 < points.length := List.length_pos.mpr hne
  have heq : lagrange_interpolation points =
      (List.range points.length).foldl
        (fun result i =>
          let scale :=
            (FiniteFieldElement.new (points.getD i (0, 0)).2).multiply
              (lagrangeDenom points i).inverse
          result.add ((lagrangeBasis points i).multiply_scalar scale.value))
        (Stark.Polynomial.new []) := by
    rw [lagrange_interpolation.eq_def]
    rw [if_neg (by omega)]
  obtain ⟨hall, hcast⟩ := lagrange_fold_cast points points.length
  rw [← heq] at hall hcast
  have hbasis : ∀ i,
      toPoly defaultP (lagrangeBasis points i).coefficients =
        ((List.range points.length).map
          (fun j => if i = j then 1
            else Polynomial.X -
              Polynomial.C (((points.getD j (0, 0)).1 : Int) :
                ZMod defaultP))).prod := by
    intro i
    have h := (lagrange_basis_fold points i (List.range points.length)
      (Stark.Polynomial.new [1]) (allD_new [1])).2
    rw [toPoly_new_one, one_mul] at h
    exact h
  have hdenom : ∀ i,
      (((lagrangeDenom points i).value : Int) : ZMod defaultP) =
        ((List.range points.length).map
          (fun j => if i = j then (1 : ZMod defaultP)
            else (((points.getD i (0, 0)).1 -
              (points.getD j (0, 0)).1 : Int) : ZMod defaultP))).prod := by
    intro i
    have h := (lagrange_denom_fold points i (List.range points.length)
      (FiniteFieldElement.new 1) rfl).2
    rw [new_cast 1 defaultP defaultP_cast.symm, Int.cast_one, one_mul] at h
    exact h
  have hdenomf : ∀ i, (lagrangeDenom points i).field =
      FiniteFieldElement.DEFAULT_FIELD := fun i =>
    (lagrange_denom_fold points i (List.range points.length)
      (FiniteFieldElement.new 1) rfl).1
  have hp2 : 2 ≤ defaultP := by norm_num [defaultP]
  have hp127 : (defaultP : Int) < 2 ^ 127 := by norm_num [defaultP]
  have hscale : ∀ i,
      ((((FiniteFieldElement.new (points.getD i (0, 0)).2).multiply
        (lagrangeDenom points i).inverse).value : Int) : ZMod defaultP) =
        (((points.getD i (0, 0)).2 : Int) : ZMod defaultP) *
          (((lagrangeDenom points i).value : Int) : ZMod defaultP) ^
            (defaultP - 2) := by
    intro i
    rw [multiply_cast _ _ defaultP DEFAULT_FIELD_prime,
      new_cast _ defaultP defaultP_cast.symm,
      (inverse_cast defaultP hp127 hp2 (lagrangeDenom points i)
        (by rw [hdenomf i]; exact DEFAULT_FIELD_prime)).2]
  constructor
  · intro t ht
    have hx : (FiniteFieldElement.new (points.getD t (0, 0)).1).field =
        FiniteFieldElement.DEFAULT_FIELD := rfl
    have hlenres := lagrange_result_length points points.length
    rw [← heq] at hlenres
    rw [evaluate_cast _ _ hx
      (by
        have h27 : (2 : ℕ) ^ 120 ≤ 2 ^ 127 := by norm_num
        omega) hall]
    rw [hcast, Polynomial.eval_finset_sum]
    have hz : (((FiniteFieldElement.new
        (points.getD t (0, 0)).1).value : Int) : ZMod defaultP) =
        (((points.getD t (0, 0)).1 : Int) : ZMod defaultP) :=
      new_cast _ defaultP defaultP_cast.symm
    have hDne : (((lagrangeDenom points t).value : Int) : ZMod defaultP) ≠ 0 := by
      rw [hdenom t]
      refine List.prod_ne_zero ?_
      intro hmem
      obtain ⟨j, hj, hfac⟩ := List.mem_map.mp hmem
      by_cases hjt : t = j
      · rw [if_pos hjt] at hfac
        exact one_ne_zero hfac
      · rw [if_neg hjt] at hfac
        rw [Int.cast_sub] at hfac
        exact hdist t ht j (List.mem_range.mp hj) hjt (sub_eq_zero.mp hfac)
    rw [Finset.sum_eq_single_of_mem t (Finset.mem_range.mpr ht)]
    · have hBt : Polynomial.eval
          (((FiniteFieldElement.new
            (points.getD t (0, 0)).1).value : Int) : ZMod defaultP)
          (toPoly defaultP (lagrangeBasis points t).coefficients) =
          (((lagrangeDenom points t).value : Int) : ZMod defaultP) := by
        rw [hbasis t, Polynomial.eval_list_prod, List.map_map, hdenom t]
        refine congrArg List.prod ?_
        refine List.map_congr_left ?_
        intro j _
        show Polynomial.eval _
            (if t = j then 1
              else Polynomial.X -
                Polynomial.C (((points.getD j (0, 0)).1 : Int) :
                  ZMod defaultP)) = _
        by_cases hjt : t = j
        · rw [if_pos hjt, if_pos hjt, Polynomial.eval_one]
        · rw [if_neg hjt, if_neg hjt, Polynomial.eval_sub,
            Polynomial.eval_X, Polynomial.eval_C, hz, Int.cast_sub]
      rw [Polynomial.eval_mul, Polynomial.eval_C, hscale t, hBt, mul_assoc,
        cast_pow_sub_two_mul_self defaultP _ hDne, mul_one]
    · intro i _ hit
      have hB0 : Polynomial.eval
          (((FiniteFieldElement.new
            (points.getD t (0, 0)).1).value : Int) : ZMod defaultP)
          (toPoly defaultP (lagrangeBasis points i).coefficients) = 0 := by
        rw [hbasis i, Polynomial.eval_list_prod, List.map_map]
        refine List.prod_eq_zero ?_
        refine List.mem_map.mpr ⟨t, List.mem_range.mpr ht, ?_⟩
        show Polynomial.eval _
            (if i = t then 1
              else Polynomial.X -
                Polynomial.C (((points.getD t (0, 0)).1 : Int) :
                  ZMod defaultP)) = 0
        rw [if_neg hit, Polynomial.eval_sub, Polynomial.eval_X,
          Polynomial.eval_C, hz, sub_self]
      rw [Polynomial.eval_mul, Polynomial.eval_C, hB0, mul_zero]
  · rw [hcast]
    refine lt_of_le_of_lt (Polynomial.degree_sum_le _ _) ?_
    have hsup : (Finset.range points.length).sup
        (fun i => (Polynomial.C
          ((((FiniteFieldElement.new (points.getD i (0, 0)).2).multiply
            (lagrangeDenom points i).inverse).value : Int) : ZMod defaultP) *
          toPoly defaultP (lagrangeBasis points i).coefficients).degree) ≤
        ((points.length - 1 : ℕ) : WithBot ℕ) := by
      refine Finset.sup_le ?_
      intro i hi
      refine le_trans (Polynomial.degree_mul_le _ _) ?_
      have hBdeg : (toPoly defaultP
          (lagrangeBasis points i).coefficients).degree ≤
          ((points.length - 1 : ℕ) : WithBot ℕ) := by
        rw [hbasis i]
        have hdeg := prod_deg_lt
          (fun j => if i = j then 1
            else Polynomial.X -
              Polynomial.C (((points.getD j (0, 0)).1 : Int) : ZMod defaultP))
          (by
            intro j
            show ((if i = j then 1
              else Polynomial.X -
                Polynomial.C (((points.getD j (0, 0)).1 : Int) :
                  ZMod defaultP)) : Polynomial (ZMod defaultP)).degree ≤ 1
            by_cases hj : i = j
            · rw [if_pos hj, Polynomial.degree_one]
              exact zero_le_one
            · rw [if_neg hj, Polynomial.degree_X_sub_C])
          i (by
            show ((if i = i then 1
              else Polynomial.X -
                Polynomial.C (((points.getD i (0, 0)).1 : Int) :
                  ZMod defaultP)) : Polynomial (ZMod defaultP)).degree ≤ 0
            rw [if_pos rfl, Polynomial.degree_one])
          (List.range points.length)
          (List.mem_range.mpr (Finset.mem_range.mp hi))
        rw [List.length_range] at hdeg
        exact hdeg
      refine le_trans (add_le_add Polynomial.degree_C_le hBdeg) ?_
      rw [zero_add]
    refine lt_of_le_of_lt hsup ?_
    exact_mod_cast (by omega : points.length - 1 < points.length)

/-- C3 counterexample: the two points (0, 1) and (3221225473, 1) have
distinct i128 x-coordinates and are non-empty, yet the interpolated
polynomial evaluates to 0 at x = 0 rather than to y = 1 (the x's collide
modulo the default prime, so the claim is false for integer-distinct
inputs). -/
theorem lagrange_interpolation_counterexample :
    ((0 : Int) ≠ (3221225473 : Int)) ∧
    ((lagrange_interpolation [(0, 1), (3221225473, 1)]).evaluate
        (FiniteFieldElement.new 0)).value = 0 ∧
    ¬ ((0 : Int) - 1) % 3221225473 = 0 := by
  refine ⟨by decide, by decide, by decide⟩

theorem lagrange_interpolation_spec_witness :
    ((((lagrange_interpolation [((1 : Int), (2 : Int)), (2, 4)]).evaluate
        (FiniteFieldElement.new 1)).value : Int) : ZMod defaultP) =
      ((2 : Int) : ZMod defaultP) ∧
    (toPoly defaultP
      (lagrange_interpolation
        [((1 : Int), (2 : Int)), (2, 4)]).coefficients).degree <
      ((2 : ℕ) : WithBot ℕ) := by
  have h := lagrange_interpolation_spec [(1, 2), (2, 4)] (by decide)
    (by norm_num) (by decide)
  exact ⟨h.1 0 (by norm_num), h.2⟩
